import Mathlib

/-!
Verification development for `threadpool.h`: a shallow embedding of the source and the
properties proved about it.

* `AData`, `fn_type` : the result handle and the type-erased callables (`fn_type`).
* `Worker` : one atomic step of `Worker::thread_fn` per program point (`PC`), with the
  worker's `std::mutex` as an explicit flag; `appendFn`, `getTaskCount`, `isEmpty` are the
  critical sections of the callers, atomic, and fail with `Fault.wouldBlock` when the
  worker thread holds the mutex.
* `ThreadPool` : constructor, `getFreeWorker`, both `runAsync` overloads.

Threads are interleaved at the granularity of these steps (sequentially consistent
memory).  A worker asleep in `cv.wait` may wake at any time (spurious wakeups are allowed
by `std::condition_variable`), so `notify_one` carries no state: the model has every
behaviour of the source and is meant for invariants, not for the delivery of wake-ups.

The fields of `AData` are plain (not atomic) and `pData->data`, `pData->ready` are
written without a lock.  The embedding executes the two stores in program order on one
store; the order in which another thread observes them is not represented, and nothing
proved here speaks about it.
-/

set_option autoImplicit false

/-! ## Data model -/

/-- Result handle `AData<_T>` (lines 11-17).  The constructor initialises `ready` only;
`data` is left default-initialised, modelled as `none`. -/
structure AData (T : Type) where
  ready : Bool
  data : Option T

/-- Constructor `AData()` : `ready(false)`. -/
def AData.ctor {T : Type} : AData T := { ready := false, data := none }

/-- Callables stored in a worker queue (`fn_type = std::function<void()>`).
* `bound id` : `std::bind(_fn, _args...)` of the void overload of `runAsync` (line 124);
  `id` names the user callable, whose body is not part of the library.
* `result pData rfn` : the lambda of lines 110-114, capturing the handle `pData`
  (an index into the free store) and `rfn = std::bind(_fn, _args...)`. -/
inductive fn_type (R : Type) where
  | bound (id : Nat)
  | result (pData : Nat) (rfn : Unit → R)

/-- Number of statements of the task body that act on the free store. -/
def fn_type.size {R : Type} : fn_type R → Nat
  | .bound _ => 0
  | .result _ _ => 2

/-- Overwrite cell `p` of the free store through `f`. -/
def storeAt {R : Type} (mem : List (AData R)) (p : Nat) (f : AData R → AData R) :
    List (AData R) :=
  match mem[p]? with
  | some c => mem.set p (f c)
  | none => mem

/-- Statement `k` of the task body, in program order.  For the lambda of `runAsync<_R>` :
statement 0 is `pData->data = rfn();` (line 112), statement 1 is `pData->ready = true;`
(line 113).  Both are plain stores in the source; here each is one step on the store of
the executing thread, which fixes what the handle holds once the lambda has returned and
leaves open what a concurrent reader sees in between. -/
def fn_type.exec {R : Type} : fn_type R → Nat → List (AData R) → List (AData R)
  | .result pData rfn, 0, mem => storeAt mem pData (fun c => { c with data := some (rfn ()) })
  | .result pData _, 1, mem => storeAt mem pData (fun c => { c with ready := true })
  | _, _, mem => mem

/-- Ways an operation fails to return normally. -/
inductive Fault where
  | wouldBlock
  | nullDeref
  | popEmpty
  deriving DecidableEq, Repr

/-- Program points of `Worker::thread_fn` (lines 68-87). -/
inductive PC (R : Type) where
  | loop
  | lock
  | wait
  | sleep
  | drain
  | unlock (fn : fn_type R)
  | call (fn : fn_type R) (k : Nat)
  | relock (fn : fn_type R)
  | pop (fn : fn_type R)
  | exit

/-- State of a `Worker` (lines 62-66) and of its thread.
`mutex` is true when the worker thread owns `mutex`; `started` is a history variable:
the callables whose `fn()` (line 81) has been invoked, in order. -/
structure Worker (R : Type) where
  enabled : Bool
  fqueue : List (fn_type R)
  mutex : Bool
  pc : PC R
  started : List (fn_type R)

/-- Constructor `Worker()` (lines 29-32): enabled, empty queue, thread at its entry. -/
def Worker.ctor {R : Type} : Worker R :=
  { enabled := true, fqueue := [], mutex := false, pc := .loop, started := [] }

/-- First two statements of `~Worker()` (lines 36-37): `enabled = false; cv.notify_one();`. -/
def Worker.dtor {R : Type} (w : Worker R) : Worker R := { w with enabled := false }

/-- The `thread.join()` of `~Worker()` (line 38) returns once `thread_fn` has returned. -/
def Worker.joined {R : Type} (w : Worker R) : Bool :=
  match w.pc with
  | .exit => true
  | _ => false

/-- Method `appendFn` (lines 41-46). -/
def Worker.appendFn {R : Type} (w : Worker R) (fn : fn_type R) : Except Fault (Worker R) :=
  if w.mutex then .error .wouldBlock else .ok { w with fqueue := w.fqueue ++ [fn] }

/-- Method `getTaskCount` (lines 48-52). -/
def Worker.getTaskCount {R : Type} (w : Worker R) : Except Fault Nat :=
  if w.mutex then .error .wouldBlock else .ok w.fqueue.length

/-- Method `isEmpty` (lines 54-58). -/
def Worker.isEmpty {R : Type} (w : Worker R) : Except Fault Bool :=
  if w.mutex then .error .wouldBlock else .ok w.fqueue.isEmpty

/-- One step of the worker thread in `thread_fn`, acting on the worker and the free store.
* `loop` : line 70, `while (enabled)`.
* `lock` : line 72, `unique_lock locker(mutex)`.
* `wait` : line 75, the predicate of `cv.wait` evaluated under the mutex; when false the
  mutex is released and the thread sleeps.
* `sleep` : wake-up inside `cv.wait`: the mutex is re-acquired, the predicate re-checked.
* `drain` : line 76, `while(!fqueue.empty())`, and line 78 `fn = fqueue.front()`; on an
  empty queue the scope of `locker` ends (line 86), releasing the mutex.
* `unlock fn` : line 80, then `fn()` is invoked (line 81).
* `call fn k` : statement `k` of the body of `fn`, or its return.
* `relock fn` : line 83.  `pop fn` : line 84.
* `exit` : `thread_fn` has returned. -/
def Worker.tick {R : Type} (w : Worker R) (mem : List (AData R)) :
    Except Fault (Worker R × List (AData R)) :=
  match w.pc with
  | .loop => .ok ({ w with pc := if w.enabled then .lock else .exit }, mem)
  | .lock =>
    if w.mutex then .error .wouldBlock else .ok ({ w with mutex := true, pc := .wait }, mem)
  | .wait =>
    if !w.fqueue.isEmpty || !w.enabled then .ok ({ w with pc := .drain }, mem)
    else .ok ({ w with mutex := false, pc := .sleep }, mem)
  | .sleep =>
    if w.mutex then .error .wouldBlock else .ok ({ w with mutex := true, pc := .wait }, mem)
  | .drain =>
    match w.fqueue with
    | [] => .ok ({ w with mutex := false, pc := .loop }, mem)
    | fn :: _ => .ok ({ w with pc := .unlock fn }, mem)
  | .unlock fn =>
    .ok ({ w with mutex := false, pc := .call fn 0, started := w.started ++ [fn] }, mem)
  | .call fn k =>
    if k < fn.size then .ok ({ w with pc := .call fn (k + 1) }, fn.exec k mem)
    else .ok ({ w with pc := .relock fn }, mem)
  | .relock fn =>
    if w.mutex then .error .wouldBlock else .ok ({ w with mutex := true, pc := .pop fn }, mem)
  | .pop _ =>
    match w.fqueue with
    | [] => .error .popEmpty
    | _ :: rest => .ok ({ w with fqueue := rest, pc := .drain }, mem)
  | .exit => .ok (w, mem)

/-- The constant `UINT32_MAX` used as the starting bound of `minTasks` (line 132). -/
def UINT32_MAX : Nat := 4294967295

/-- The pool: `_workers` (line 148), together with the free store holding the `AData`
objects allocated by `runAsync` (a handle is an index into `heap`). -/
structure ThreadPool (R : Type) where
  _workers : List (Worker R)
  heap : List (AData R)

/-- The `for` loop of the constructor (lines 96-100), `i` iterations left. -/
def ThreadPool.ctorLoop {R : Type} : Nat → List (Worker R) → List (Worker R)
  | 0, ws => ws
  | i + 1, ws => ThreadPool.ctorLoop i (ws ++ [Worker.ctor])

/-- Constructor `ThreadPool(size_t threads)` (lines 92-101). -/
def ThreadPool.ctor {R : Type} (threads : Nat) : ThreadPool R :=
  let threads := if threads = 0 then 1 else threads
  { _workers := ThreadPool.ctorLoop threads [], heap := [] }

/-- The range-for of `getFreeWorker` (lines 133-144) over the _workers still to scan;
`i` is the position of the next worker in `_workers`, `pWorker` the worker remembered so
far (`none` is the null `worker_ptr`). -/
def getFreeWorkerLoop {R : Type} :
    List (Worker R) → Nat → Nat → Option Nat → Except Fault (Option Nat)
  | [], _, _, pWorker => .ok pWorker
  | it :: rest, i, minTasks, pWorker =>
    match it.isEmpty with
    | .error e => .error e
    | .ok true => .ok (some i)
    | .ok false =>
      match it.getTaskCount with
      | .error e => .error e
      | .ok c =>
        if minTasks > c then
          match it.getTaskCount with
          | .error e => .error e
          | .ok c2 => getFreeWorkerLoop rest (i + 1) c2 (some i)
        else getFreeWorkerLoop rest (i + 1) minTasks pWorker

/-- Method `getFreeWorker` (lines 129-146): the position of the selected worker. -/
def ThreadPool.getFreeWorker {R : Type} (p : ThreadPool R) : Except Fault (Option Nat) :=
  getFreeWorkerLoop p._workers 0 UINT32_MAX none

/-- The call `pWorker->appendFn(fn)` on the result of `getFreeWorker` (lines 115-116 and
123-124); a null `pWorker` is dereferenced. -/
def ThreadPool.dispatch {R : Type} (p : ThreadPool R) (fn : fn_type R) :
    Except Fault (ThreadPool R) :=
  match p.getFreeWorker with
  | .error e => .error e
  | .ok none => .error .nullDeref
  | .ok (some i) =>
    match p._workers[i]? with
    | none => .error .nullDeref
    | some w =>
      match w.appendFn fn with
      | .error e => .error e
      | .ok w2 => .ok { p with _workers := p._workers.set i w2 }

/-- Void overload of `runAsync` (lines 120-125); `id` names `std::bind(_fn, _args...)`. -/
def ThreadPool.runAsync {R : Type} (p : ThreadPool R) (id : Nat) :
    Except Fault (ThreadPool R) :=
  p.dispatch (.bound id)

/-- Result overload of `runAsync` (lines 105-118): binds the arguments, allocates the
handle, wraps, dispatches, and returns the handle. -/
def ThreadPool.runAsyncR {R A : Type} (p : ThreadPool R) (_fn : A → R) (_args : A) :
    Except Fault (Nat × ThreadPool R) :=
  let rfn : Unit → R := fun _ => _fn _args
  let pData := p.heap.length
  let p1 : ThreadPool R := { p with heap := p.heap ++ [AData.ctor] }
  match p1.dispatch (.result pData rfn) with
  | .error e => .error e
  | .ok p2 => .ok (pData, p2)

/-! ## Interleavings -/

/-- Scheduler events of one worker: a step of its thread, a call of `appendFn` by any
thread (a running task included), the start of its destructor. -/
inductive WEvent (R : Type) where
  | tick
  | appendFn (fn : fn_type R)
  | dtor

/-- One event on a worker and the free store. -/
def Worker.step {R : Type} (s : Worker R × List (AData R)) :
    WEvent R → Except Fault (Worker R × List (AData R))
  | .tick => s.1.tick s.2
  | .appendFn fn =>
    match s.1.appendFn fn with
    | .error e => .error e
    | .ok w => .ok (w, s.2)
  | .dtor => .ok (s.1.dtor, s.2)

/-- A schedule of events on a worker; a blocked event makes the schedule invalid. -/
def Worker.run {R : Type} (s : Worker R × List (AData R)) :
    List (WEvent R) → Except Fault (Worker R × List (AData R))
  | [] => .ok s
  | e :: es =>
    match Worker.step s e with
    | .error f => .error f
    | .ok s2 => Worker.run s2 es

/-- The callables passed to `appendFn` by a schedule, in order. -/
def WEvent.appended {R : Type} : List (WEvent R) → List (fn_type R)
  | [] => []
  | .appendFn fn :: es => fn :: WEvent.appended es
  | _ :: es => WEvent.appended es

/-- Scheduler events of the pool: a step of worker thread `i`, a call of either overload
of `runAsync`, the start of the destructor of worker `i` (from `~ThreadPool`). -/
inductive Event (R : Type) where
  | tick (i : Nat)
  | runAsync (id : Nat)
  | runAsyncR (rfn : Unit → R)
  | dtor (i : Nat)

/-- One event on the pool. -/
def ThreadPool.step {R : Type} (p : ThreadPool R) : Event R → Except Fault (ThreadPool R)
  | .tick i =>
    match p._workers[i]? with
    | none => .ok p
    | some w =>
      match w.tick p.heap with
      | .error e => .error e
      | .ok (w2, mem) => .ok { _workers := p._workers.set i w2, heap := mem }
  | .runAsync id => p.runAsync id
  | .runAsyncR rfn =>
    match p.runAsyncR rfn () with
    | .error e => .error e
    | .ok (_, p2) => .ok p2
  | .dtor i =>
    match p._workers[i]? with
    | none => .ok p
    | some w => .ok { p with _workers := p._workers.set i w.dtor }

/-- A schedule of events on the pool. -/
def ThreadPool.run {R : Type} (p : ThreadPool R) : List (Event R) → Except Fault (ThreadPool R)
  | [] => .ok p
  | e :: es =>
    match p.step e with
    | .error f => .error f
    | .ok p2 => ThreadPool.run p2 es

/-! ## Constructor -/

theorem ThreadPool.ctorLoop_length {R : Type} (i : Nat) (ws : List (Worker R)) :
    (ThreadPool.ctorLoop i ws).length = ws.length + i := by
  induction i generalizing ws with
  | zero => simp [ThreadPool.ctorLoop]
  | succ i ih => simp [ThreadPool.ctorLoop, ih]; omega

/-- C1: constructing a pool with requested size `n` creates exactly `max n 1` workers:
one worker for a requested size of 0, and `n + 1` workers for the positive size `n + 1`. -/
theorem ThreadPool.ctor_worker_count {R : Type} (n : Nat) :
    (ThreadPool.ctor n : ThreadPool R)._workers.length = max n 1 ∧
    (ThreadPool.ctor 0 : ThreadPool R)._workers.length = 1 ∧
    (ThreadPool.ctor (n + 1) : ThreadPool R)._workers.length = n + 1 := by
  refine ⟨?_, ?_, ?_⟩
  · simp only [ThreadPool.ctor, ThreadPool.ctorLoop_length]
    split
    · subst_vars; simp
    · simp; omega
  · simp [ThreadPool.ctor, ThreadPool.ctorLoop_length]
  · simp [ThreadPool.ctor, ThreadPool.ctorLoop_length]

/-! ## Dispatch policy -/

theorem Worker.isEmpty_unlocked {R : Type} (w : Worker R) (h : w.mutex = false) :
    w.isEmpty = .ok w.fqueue.isEmpty := by
  simp [Worker.isEmpty, h]

theorem Worker.getTaskCount_unlocked {R : Type} (w : Worker R) (h : w.mutex = false) :
    w.getTaskCount = .ok w.fqueue.length := by
  simp [Worker.getTaskCount, h]

/-- The scan stops at the first worker whose queue is empty. -/
theorem getFreeWorkerLoop_idle {R : Type} (ws : List (Worker R)) (i m : Nat) (p : Option Nat)
    (j : Nat) (wj : Worker R) (hj : ws[j]? = some wj) (he : wj.fqueue = [])
    (hq : ∀ w ∈ ws, w.mutex = false)
    (hne : ∀ k wk, k < j → ws[k]? = some wk → wk.fqueue ≠ []) :
    getFreeWorkerLoop ws i m p = .ok (some (i + j)) := by
  induction ws generalizing i m p j with
  | nil => simp at hj
  | cons it rest ih =>
    have hit : it.mutex = false := hq it (by simp)
    have hrest : ∀ w ∈ rest, w.mutex = false := fun w hw => hq w (by simp [hw])
    cases j with
    | zero =>
      simp at hj
      subst hj
      simp [getFreeWorkerLoop, Worker.isEmpty_unlocked _ hit, he]
    | succ j =>
      simp at hj
      have h0 : it.fqueue ≠ [] := hne 0 it (by omega) (by simp)
      have hne2 : ∀ k wk, k < j → rest[k]? = some wk → wk.fqueue ≠ [] := by
        intro k wk hk hwk
        exact hne (k + 1) wk (by omega) (by simpa using hwk)
      have hemp : it.fqueue.isEmpty = false := by
        cases hq : it.fqueue with
        | nil => exact absurd hq h0
        | cons a l => rfl
      simp only [getFreeWorkerLoop, Worker.isEmpty_unlocked _ hit, hemp,
        Worker.getTaskCount_unlocked _ hit]
      split
      · rw [ih (i + 1) _ _ j hj hrest hne2]; congr 2; omega
      · rw [ih (i + 1) _ _ j hj hrest hne2]; congr 2; omega

/-- With no empty queue the scan runs to the end and keeps the earliest strict minimum
below the starting bound, or the incoming `pWorker` when no depth is below the bound. -/
theorem getFreeWorkerLoop_busy {R : Type} (ws : List (Worker R)) (i m : Nat) (p : Option Nat)
    (hq : ∀ w ∈ ws, w.mutex = false) (hne : ∀ w ∈ ws, w.fqueue ≠ []) :
    ∃ r, getFreeWorkerLoop ws i m p = .ok r ∧
      ((r = p ∧ ∀ w ∈ ws, m ≤ w.fqueue.length) ∨
       (∃ j wj, ws[j]? = some wj ∧ r = some (i + j) ∧ wj.fqueue.length < m ∧
          (∀ k wk, k < j → ws[k]? = some wk → wj.fqueue.length < wk.fqueue.length) ∧
          (∀ w ∈ ws, wj.fqueue.length ≤ w.fqueue.length))) := by
  induction ws generalizing i m p with
  | nil => exact ⟨p, rfl, Or.inl ⟨rfl, by simp⟩⟩
  | cons it rest ih =>
    have hit : it.mutex = false := hq it (by simp)
    have hrest : ∀ w ∈ rest, w.mutex = false := fun w hw => hq w (by simp [hw])
    have hne2 : ∀ w ∈ rest, w.fqueue ≠ [] := fun w hw => hne w (by simp [hw])
    have hemp : it.fqueue.isEmpty = false := by
      cases hq : it.fqueue with
      | nil => exact absurd hq (hne it (by simp))
      | cons a l => rfl
    simp only [getFreeWorkerLoop, Worker.isEmpty_unlocked _ hit, hemp,
      Worker.getTaskCount_unlocked _ hit]
    by_cases hm : m > it.fqueue.length
    · simp only [hm, if_true]
      obtain ⟨r, hr, hcase⟩ := ih (i + 1) it.fqueue.length (some i) hrest hne2
      refine ⟨r, hr, Or.inr ?_⟩
      rcases hcase with ⟨hrp, hall⟩ | ⟨j, wj, hj, hrj, hlt, hearly, hmin⟩
      · refine ⟨0, it, by simp, by simpa using hrp, hm, ?_, ?_⟩
        · intro k wk hk; omega
        · intro w hw
          rcases List.mem_cons.mp hw with rfl | hw
          · exact le_refl _
          · exact hall w hw
      · refine ⟨j + 1, wj, by simpa using hj, ?_, by omega, ?_, ?_⟩
        · rw [hrj]; congr 1; omega
        · intro k wk hk hwk
          cases k with
          | zero => simp at hwk; subst hwk; exact hlt
          | succ k => exact hearly k wk (by omega) (by simpa using hwk)
        · intro w hw
          rcases List.mem_cons.mp hw with rfl | hw
          · omega
          · exact hmin w hw
    · simp only [hm, if_false]
      obtain ⟨r, hr, hcase⟩ := ih (i + 1) m p hrest hne2
      refine ⟨r, hr, ?_⟩
      rcases hcase with ⟨hrp, hall⟩ | ⟨j, wj, hj, hrj, hlt, hearly, hmin⟩
      · refine Or.inl ⟨hrp, ?_⟩
        intro w hw
        rcases List.mem_cons.mp hw with rfl | hw
        · omega
        · exact hall w hw
      · refine Or.inr ⟨j + 1, wj, by simpa using hj, ?_, hlt, ?_, ?_⟩
        · rw [hrj]; congr 1; omega
        · intro k wk hk hwk
          cases k with
          | zero => simp at hwk; subst hwk; omega
          | succ k => exact hearly k wk (by omega) (by simpa using hwk)
        · intro w hw
          rcases List.mem_cons.mp hw with rfl | hw
          · omega
          · exact hmin w hw

/-- The first position of a list at which a property holds. -/
theorem exists_first_index {α : Type} (P : α → Prop) (l : List α) (h : ∃ a ∈ l, P a) :
    ∃ (j : Nat) (aj : α), l[j]? = some aj ∧ P aj ∧
      ∀ (k : Nat) (ak : α), k < j → l[k]? = some ak → ¬ P ak := by
  induction l with
  | nil => simp at h
  | cons a l ih =>
    by_cases ha : P a
    · exact ⟨0, a, by simp, ha, fun k ak hk => by omega⟩
    · have h2 : ∃ b ∈ l, P b := by
        obtain ⟨b, hb, hpb⟩ := h
        rcases List.mem_cons.mp hb with rfl | hb
        · exact absurd hpb ha
        · exact ⟨b, hb, hpb⟩
      obtain ⟨j, aj, hj, hpj, hfirst⟩ := ih h2
      refine ⟨j + 1, aj, by simpa using hj, hpj, ?_⟩
      intro k ak hk hak
      cases k with
      | zero => simp at hak; subst hak; exact ha
      | succ k => exact hfirst k ak (by omega) (by simpa using hak)

/-- C2: on a quiescent snapshot (no worker thread inside a critical section) of a non-empty
pool whose queue depths are all below `UINT32_MAX`, `getFreeWorker` returns a worker `j`
of the pool such that: if some queue is empty, `j` is the first worker in scan order whose
queue is empty; otherwise the depth of `j` is at most the depth of every worker and
strictly less than the depth of every worker scanned before it. -/
theorem ThreadPool.getFreeWorker_least_loaded {R : Type} (p : ThreadPool R)
    (hne : p._workers ≠ [])
    (hq : ∀ w ∈ p._workers, w.mutex = false)
    (hb : ∀ w ∈ p._workers, w.fqueue.length < UINT32_MAX) :
    ∃ j wj, p.getFreeWorker = .ok (some j) ∧ p._workers[j]? = some wj ∧
      ((∃ w ∈ p._workers, w.fqueue = []) →
        wj.fqueue = [] ∧ ∀ k wk, k < j → p._workers[k]? = some wk → wk.fqueue ≠ []) ∧
      ((∀ w ∈ p._workers, w.fqueue ≠ []) →
        (∀ w ∈ p._workers, wj.fqueue.length ≤ w.fqueue.length) ∧
        ∀ k wk, k < j → p._workers[k]? = some wk → wj.fqueue.length < wk.fqueue.length) := by
  by_cases hidle : ∃ w ∈ p._workers, w.fqueue = []
  · obtain ⟨j, wj, hj, hej, hfirst⟩ := exists_first_index (fun w => w.fqueue = []) _ hidle
    refine ⟨j, wj, ?_, hj, fun _ => ⟨hej, hfirst⟩, ?_⟩
    · have := getFreeWorkerLoop_idle p._workers 0 UINT32_MAX none j wj hj hej hq hfirst
      simpa [ThreadPool.getFreeWorker] using this
    · intro hall
      exact absurd hej (hall wj (List.getElem?_mem hj))
  · have hall : ∀ w ∈ p._workers, w.fqueue ≠ [] := fun w hw he => hidle ⟨w, hw, he⟩
    obtain ⟨r, hr, hcase⟩ := getFreeWorkerLoop_busy p._workers 0 UINT32_MAX none hq hall
    rcases hcase with ⟨_, hbig⟩ | ⟨j, wj, hj, hrj, _, hearly, hmin⟩
    · obtain ⟨w, hw⟩ := List.exists_mem_of_ne_nil _ hne
      have h1 := hb w hw
      have h2 := hbig w hw
      omega
    · refine ⟨j, wj, ?_, hj, fun h => absurd h hidle, fun _ => ⟨hmin, hearly⟩⟩
      simp only [ThreadPool.getFreeWorker, hr, hrj, Nat.zero_add]

/-- A pool snapshot with queue depths 2, 1, 1 and no idle worker. -/
def busyPool : ThreadPool Nat :=
  { _workers :=
      [ { Worker.ctor with fqueue := [.bound 0, .bound 1] },
        { Worker.ctor with fqueue := [.bound 2] },
        { Worker.ctor with fqueue := [.bound 3] } ],
    heap := [] }

/-- Witness for C2: on depths 2, 1, 1 the hypotheses hold and worker 1 is returned. -/
theorem ThreadPool.getFreeWorker_least_loaded_witness :
    busyPool.getFreeWorker = .ok (some 1) ∧
    ∃ j wj, busyPool.getFreeWorker = .ok (some j) ∧ busyPool._workers[j]? = some wj ∧
      ((∃ w ∈ busyPool._workers, w.fqueue = []) →
        wj.fqueue = [] ∧
          ∀ k wk, k < j → busyPool._workers[k]? = some wk → wk.fqueue ≠ []) ∧
      ((∀ w ∈ busyPool._workers, w.fqueue ≠ []) →
        (∀ w ∈ busyPool._workers, wj.fqueue.length ≤ w.fqueue.length) ∧
        ∀ k wk, k < j → busyPool._workers[k]? = some wk →
          wj.fqueue.length < wk.fqueue.length) :=
  ⟨rfl, ThreadPool.getFreeWorker_least_loaded busyPool (by simp [busyPool])
    (by intro w hw; simp [busyPool] at hw; rcases hw with rfl | rfl | rfl <;> rfl)
    (by
      intro w hw; simp [busyPool] at hw
      rcases hw with rfl | rfl | rfl <;> simp [UINT32_MAX])⟩

/-- A single worker that is not idle and whose depth has reached the starting bound is
not selected: the scan ends with the null `worker_ptr`. -/
theorem getFreeWorker_single_full {R : Type} (w : Worker R) (mem : List (AData R))
    (hq : w.mutex = false) (hne : w.fqueue ≠ []) (hfull : UINT32_MAX ≤ w.fqueue.length) :
    ThreadPool.getFreeWorker { _workers := [w], heap := mem } = .ok none := by
  have hemp : w.fqueue.isEmpty = false := by
    cases hq : w.fqueue with
    | nil => exact absurd hq hne
    | cons a l => rfl
  have hm : ¬ UINT32_MAX > w.fqueue.length := by omega
  simp only [ThreadPool.getFreeWorker, getFreeWorkerLoop, Worker.isEmpty_unlocked _ hq, hemp,
    Worker.getTaskCount_unlocked _ hq, hm, if_false]

/-- A null result of `getFreeWorker` is dereferenced by `runAsync`. -/
theorem ThreadPool.runAsync_null {R : Type} (p : ThreadPool R) (id : Nat)
    (h : p.getFreeWorker = .ok none) : p.runAsync id = .error .nullDeref := by
  simp only [ThreadPool.runAsync, ThreadPool.dispatch, h]

/-- A queue of `UINT32_MAX` callables. -/
def fullQueue : List (fn_type Nat) := List.replicate UINT32_MAX (.bound 0)

/-- A single-worker pool whose worker has not yet been scheduled and whose queue holds
`UINT32_MAX` callables. -/
def fullPool : ThreadPool Nat :=
  { _workers :=
      [ { enabled := true, fqueue := fullQueue, mutex := false, pc := .loop, started := [] } ],
    heap := [] }

theorem UINT32_MAX_pos : 0 < UINT32_MAX := by unfold UINT32_MAX; omega

theorem fullQueue_length : fullQueue.length = UINT32_MAX := List.length_replicate _ _

theorem fullQueue_ne_nil : fullQueue ≠ [] := by
  intro h
  have h2 := fullQueue_length
  rw [h] at h2
  exact absurd h2.symm (Nat.ne_of_gt UINT32_MAX_pos)

/-- C9 (evaluation at the failing input): with one worker whose queue depth is
`UINT32_MAX`, the worker is not idle and `minTasks > depth` is false, so `getFreeWorker`
returns the null `worker_ptr` and `runAsync` dereferences it. -/
theorem ThreadPool.getFreeWorker_null_at_bound :
    fullPool._workers.length = 1 ∧
    fullPool._workers.map (fun w => w.mutex) = [false] ∧
    fullPool._workers.map (fun w => w.fqueue.length) = [4294967295] ∧
    fullPool.getFreeWorker = .ok none ∧
    fullPool.runAsync 1 = .error .nullDeref := by
  have h : fullPool.getFreeWorker = .ok none :=
    getFreeWorker_single_full _ _ rfl fullQueue_ne_nil (le_of_eq fullQueue_length.symm)
  refine ⟨rfl, rfl, ?_, h, ThreadPool.runAsync_null _ _ h⟩
  have hl : fullPool._workers.map (fun w => w.fqueue.length) = [fullQueue.length] := rfl
  rw [hl, fullQueue_length, UINT32_MAX]

/-! ## The worker thread -/

/-- The callables in the queue whose execution has not begun: the queue, without its head
while the head is being executed (lines 81-84, before `pop`). -/
def Worker.pending {R : Type} (w : Worker R) : List (fn_type R) :=
  match w.pc with
  | .call _ _ => w.fqueue.tail
  | .relock _ => w.fqueue.tail
  | .pop _ => w.fqueue.tail
  | _ => w.fqueue

/-- Invariant of a worker, relative to the sequence `ap` of callables appended so far:
the history of started callables followed by the pending ones is `ap`; the mutex flag
matches the program point; the local variable `fn` is the head of the queue and, once
invoked, the last started callable. -/
def Worker.Inv {R : Type} (ap : List (fn_type R)) (w : Worker R) : Prop :=
  w.started ++ w.pending = ap ∧
  match w.pc with
  | .loop => w.mutex = false
  | .lock => w.mutex = false
  | .sleep => w.mutex = false
  | .exit => w.mutex = false
  | .wait => w.mutex = true
  | .drain => w.mutex = true
  | .unlock fn => w.mutex = true ∧ w.fqueue.head? = some fn
  | .call fn _ => w.mutex = false ∧ w.fqueue.head? = some fn ∧ w.started.getLast? = some fn
  | .relock fn => w.mutex = false ∧ w.fqueue.head? = some fn ∧ w.started.getLast? = some fn
  | .pop fn => w.mutex = true ∧ w.fqueue.head? = some fn ∧ w.started.getLast? = some fn

theorem Worker.ctor_inv {R : Type} : Worker.Inv ([] : List (fn_type R)) Worker.ctor := by
  simp [Worker.Inv, Worker.ctor, Worker.pending]

theorem Worker.tick_inv {R : Type} (ap : List (fn_type R)) (w w2 : Worker R)
    (mem mem2 : List (AData R)) (hinv : Worker.Inv ap w) (h : w.tick mem = .ok (w2, mem2)) :
    Worker.Inv ap w2 := by
  obtain ⟨hlog, hpc⟩ := hinv
  cases hp : w.pc with
  | loop =>
    simp only [Worker.tick, hp, Except.ok.injEq, Prod.mk.injEq] at h
    obtain ⟨rfl, -⟩ := h
    simp only [Worker.pending, hp] at hlog
    simp only [hp] at hpc
    cases he : w.enabled <;> simp [Worker.Inv, Worker.pending, hlog, hpc]
  | lock =>
    simp only [hp] at hpc
    simp only [Worker.tick, hp, hpc, Bool.false_eq_true, if_false, Except.ok.injEq,
      Prod.mk.injEq] at h
    obtain ⟨rfl, -⟩ := h
    simp only [Worker.pending, hp] at hlog
    simp [Worker.Inv, Worker.pending, hlog]
  | wait =>
    simp only [hp] at hpc
    simp only [Worker.pending, hp] at hlog
    simp only [Worker.tick, hp] at h
    split at h
    · simp only [Except.ok.injEq, Prod.mk.injEq] at h
      obtain ⟨rfl, -⟩ := h
      simp [Worker.Inv, Worker.pending, hlog, hpc]
    · simp only [Except.ok.injEq, Prod.mk.injEq] at h
      obtain ⟨rfl, -⟩ := h
      simp [Worker.Inv, Worker.pending, hlog]
  | sleep =>
    simp only [hp] at hpc
    simp only [Worker.tick, hp, hpc, Bool.false_eq_true, if_false, Except.ok.injEq,
      Prod.mk.injEq] at h
    obtain ⟨rfl, -⟩ := h
    simp only [Worker.pending, hp] at hlog
    simp [Worker.Inv, Worker.pending, hlog]
  | drain =>
    simp only [hp] at hpc
    simp only [Worker.pending, hp] at hlog
    simp only [Worker.tick, hp] at h
    split at h
    · simp only [Except.ok.injEq, Prod.mk.injEq] at h
      obtain ⟨rfl, -⟩ := h
      simp [Worker.Inv, Worker.pending, hlog]
    · rename_i fn rest hq
      simp only [Except.ok.injEq, Prod.mk.injEq] at h
      obtain ⟨rfl, -⟩ := h
      simp [Worker.Inv, Worker.pending, ← hlog, hpc, hq]
  | unlock fn =>
    simp only [hp] at hpc
    simp only [Worker.pending, hp] at hlog
    simp only [Worker.tick, hp, Except.ok.injEq, Prod.mk.injEq] at h
    obtain ⟨rfl, -⟩ := h
    obtain ⟨-, hhead⟩ := hpc
    cases hq : w.fqueue with
    | nil => simp [hq] at hhead
    | cons a rest =>
      simp only [hq, List.head?_cons, Option.some.injEq] at hhead
      subst hhead
      simp [Worker.Inv, Worker.pending, hq, ← hlog]
  | call fn k =>
    simp only [hp] at hpc
    simp only [Worker.pending, hp] at hlog
    simp only [Worker.tick, hp] at h
    split at h
    · simp only [Except.ok.injEq, Prod.mk.injEq] at h
      obtain ⟨rfl, -⟩ := h
      simp [Worker.Inv, Worker.pending, hlog, hpc]
    · simp only [Except.ok.injEq, Prod.mk.injEq] at h
      obtain ⟨rfl, -⟩ := h
      simp [Worker.Inv, Worker.pending, hlog, hpc]
  | relock fn =>
    simp only [hp] at hpc
    simp only [Worker.pending, hp] at hlog
    simp only [Worker.tick, hp, hpc.1, Bool.false_eq_true, if_false, Except.ok.injEq,
      Prod.mk.injEq] at h
    obtain ⟨rfl, -⟩ := h
    simp [Worker.Inv, Worker.pending, hlog, hpc]
  | pop fn =>
    simp only [hp] at hpc
    simp only [Worker.pending, hp] at hlog
    simp only [Worker.tick, hp] at h
    split at h
    · simp at h
    · rename_i a rest hq
      simp only [Except.ok.injEq, Prod.mk.injEq] at h
      obtain ⟨rfl, -⟩ := h
      simp only [hq, List.tail_cons] at hlog
      simp [Worker.Inv, Worker.pending, hlog, hpc]
  | exit =>
    simp only [Worker.tick, hp, Except.ok.injEq, Prod.mk.injEq] at h
    obtain ⟨rfl, -⟩ := h
    exact ⟨hlog, hpc⟩

theorem Worker.appendFn_inv {R : Type} (ap : List (fn_type R)) (w w2 : Worker R)
    (fn : fn_type R) (hinv : Worker.Inv ap w) (h : w.appendFn fn = .ok w2) :
    Worker.Inv (ap ++ [fn]) w2 := by
  obtain ⟨hlog, hpc⟩ := hinv
  unfold Worker.appendFn at h
  split at h
  · simp at h
  · rename_i hm
    simp only [Except.ok.injEq] at h
    subst h
    cases hp : w.pc <;> simp only [hp] at hpc <;> simp only [Worker.pending, hp] at hlog <;>
      first
      | (simp [Worker.Inv, Worker.pending, hp, ← hlog, hpc]; done)
      | (obtain ⟨h1, h2, h3⟩ := hpc
         cases hq : w.fqueue with
         | nil => simp [hq] at h2
         | cons a rest =>
           simp only [hq, List.head?_cons, Option.some.injEq] at h2
           subst h2
           simp [Worker.Inv, Worker.pending, hp, ← hlog, hq, h1, h3])

theorem Worker.dtor_inv {R : Type} (ap : List (fn_type R)) (w : Worker R)
    (hinv : Worker.Inv ap w) : Worker.Inv ap w.dtor := by
  obtain ⟨hlog, hpc⟩ := hinv
  cases hp : w.pc <;> simp only [hp] at hpc <;> simp only [Worker.pending, hp] at hlog <;>
    simp [Worker.Inv, Worker.dtor, Worker.pending, hp, hlog, hpc]

theorem Worker.step_inv {R : Type} (ap : List (fn_type R)) (s s2 : Worker R × List (AData R))
    (e : WEvent R) (hinv : Worker.Inv ap s.1) (h : Worker.step s e = .ok s2) :
    Worker.Inv (ap ++ WEvent.appended [e]) s2.1 := by
  cases e with
  | tick =>
    simp only [Worker.step] at h
    simpa [WEvent.appended] using Worker.tick_inv ap s.1 s2.1 s.2 s2.2 hinv h
  | appendFn fn =>
    simp only [Worker.step] at h
    split at h
    · simp at h
    · rename_i w hw
      simp only [Except.ok.injEq] at h
      subst h
      simpa [WEvent.appended] using Worker.appendFn_inv ap s.1 w fn hinv hw
  | dtor =>
    simp only [Worker.step, Except.ok.injEq] at h
    subst h
    simpa [WEvent.appended] using Worker.dtor_inv ap s.1 hinv

theorem WEvent.appended_cons {R : Type} (e : WEvent R) (es : List (WEvent R)) :
    WEvent.appended (e :: es) = WEvent.appended [e] ++ WEvent.appended es := by
  cases e <;> simp [WEvent.appended]

theorem Worker.run_inv {R : Type} (evs : List (WEvent R)) (ap : List (fn_type R))
    (s s2 : Worker R × List (AData R)) (hinv : Worker.Inv ap s.1)
    (h : Worker.run s evs = .ok s2) : Worker.Inv (ap ++ WEvent.appended evs) s2.1 := by
  induction evs generalizing ap s with
  | nil =>
    simp only [Worker.run, Except.ok.injEq] at h
    subst h
    simpa [WEvent.appended] using hinv
  | cons e es ih =>
    simp only [Worker.run] at h
    split at h
    · simp at h
    · rename_i s1 hs1
      have h1 := Worker.step_inv ap s s1 e hinv hs1
      have h2 := ih _ s1 h1 h
      rw [WEvent.appended_cons, ← List.append_assoc]
      exact h2

/-- The worker thread is never stuck on its own mutex and never pops an empty queue: in a
state satisfying the invariant its next step is defined. -/
theorem Worker.tick_defined {R : Type} (ap : List (fn_type R)) (w : Worker R)
    (mem : List (AData R)) (hinv : Worker.Inv ap w) :
    ∃ (w2 : Worker R) (mem2 : List (AData R)), w.tick mem = .ok (w2, mem2) := by
  obtain ⟨-, hpc⟩ := hinv
  cases hp : w.pc with
  | loop => simp only [Worker.tick, hp]; exact ⟨_, _, rfl⟩
  | lock =>
    simp only [hp] at hpc
    simp only [Worker.tick, hp, hpc, Bool.false_eq_true, if_false]
    exact ⟨_, _, rfl⟩
  | wait =>
    simp only [Worker.tick, hp]
    split <;> exact ⟨_, _, rfl⟩
  | sleep =>
    simp only [hp] at hpc
    simp only [Worker.tick, hp, hpc, Bool.false_eq_true, if_false]
    exact ⟨_, _, rfl⟩
  | drain =>
    simp only [Worker.tick, hp]
    split <;> exact ⟨_, _, rfl⟩
  | unlock fn => simp only [Worker.tick, hp]; exact ⟨_, _, rfl⟩
  | call fn k =>
    simp only [Worker.tick, hp]
    split <;> exact ⟨_, _, rfl⟩
  | relock fn =>
    simp only [hp] at hpc
    simp only [Worker.tick, hp, hpc.1, Bool.false_eq_true, if_false]
    exact ⟨_, _, rfl⟩
  | pop fn =>
    simp only [hp] at hpc
    obtain ⟨-, hhead, -⟩ := hpc
    cases hq : w.fqueue with
    | nil => simp [hq] at hhead
    | cons a rest => simp only [Worker.tick, hp, hq]; exact ⟨_, _, rfl⟩
  | exit => simp only [Worker.tick, hp]; exact ⟨_, _, rfl⟩

/-- C4: per-worker FIFO.  After any schedule of worker steps, `appendFn` calls (made by
any thread at any point, also by the callable the worker is executing) and destructor
start, the callables whose execution has begun, in the order they began, followed by
the pending ones, are exactly the callables in the order they were appended; so a
callable appended earlier starts before one appended later.  At `fqueue.pop()` the head
of the queue is the callable that was just executed. -/
theorem Worker.fifo_order {R : Type} (evs : List (WEvent R)) (mem0 mem : List (AData R))
    (w : Worker R) (h : Worker.run (Worker.ctor, mem0) evs = .ok (w, mem)) :
    w.started ++ w.pending = WEvent.appended evs ∧
    w.started <+: WEvent.appended evs ∧
    ∀ fn, w.pc = .pop fn →
      w.fqueue = fn :: w.pending ∧ w.started.getLast? = some fn := by
  have hinv := Worker.run_inv evs [] (Worker.ctor, mem0) (w, mem) Worker.ctor_inv h
  simp only [List.nil_append] at hinv
  obtain ⟨hlog, hpc⟩ := hinv
  refine ⟨hlog, ⟨w.pending, hlog⟩, ?_⟩
  intro fn hfn
  simp only [hfn] at hpc
  obtain ⟨-, hhead, hlast⟩ := hpc
  refine ⟨?_, hlast⟩
  cases hq : w.fqueue with
  | nil => simp [hq] at hhead
  | cons a rest =>
    simp only [hq, List.head?_cons, Option.some.injEq] at hhead
    simp [Worker.pending, hfn, hq, hhead]

/-- A schedule in which callable 0 is appended, the worker starts executing it, callables
1 and 2 are appended while it runs, and the worker goes on to start callable 1. -/
def fifoSchedule : List (WEvent Nat) :=
  [.appendFn (.bound 0), .tick, .tick, .tick, .tick, .tick,
   .appendFn (.bound 1), .appendFn (.bound 2), .tick, .tick, .tick, .tick, .tick]

/-- The worker reached by `fifoSchedule`. -/
def fifoWorker : Worker Nat :=
  { enabled := true, fqueue := [.bound 1, .bound 2], mutex := false,
    pc := .call (.bound 1) 0, started := [.bound 0, .bound 1] }

/-- Witness for C4: on `fifoSchedule` callables 0 and 1 have started, in that order, and
callable 2 is pending. -/
theorem Worker.fifo_order_witness :
    fifoWorker.started ++ fifoWorker.pending = WEvent.appended fifoSchedule ∧
    fifoWorker.started <+: WEvent.appended fifoSchedule ∧
    ∀ fn, fifoWorker.pc = .pop fn →
      fifoWorker.fqueue = fn :: fifoWorker.pending ∧
        fifoWorker.started.getLast? = some fn :=
  Worker.fifo_order fifoSchedule [] [] fifoWorker rfl

/-- A scan that returns normally either stopped at an idle worker, or saw every worker
report a non-empty queue. -/
theorem getFreeWorkerLoop_ok_cases {R : Type} (ws : List (Worker R)) (i m : Nat)
    (p r : Option Nat) (h : getFreeWorkerLoop ws i m p = .ok r) :
    (∃ (j : Nat) (wj : Worker R), r = some (i + j) ∧ ws[j]? = some wj ∧
        wj.isEmpty = .ok true) ∨
    (∀ w ∈ ws, w.isEmpty = .ok false) := by
  induction ws generalizing i m p with
  | nil => right; simp
  | cons it rest ih =>
    have lift : ∀ i2 m2 p2, getFreeWorkerLoop rest i2 m2 p2 = .ok r → i2 = i + 1 →
        it.isEmpty = .ok false →
        (∃ (j : Nat) (wj : Worker R), r = some (i + j) ∧ (it :: rest)[j]? = some wj ∧
          wj.isEmpty = .ok true) ∨
        (∀ w ∈ it :: rest, w.isEmpty = .ok false) := by
      intro i2 m2 p2 h2 hi hit
      rcases ih i2 m2 p2 h2 with ⟨j, wj, hr, hj, he⟩ | hall
      · left
        refine ⟨j + 1, wj, ?_, by simpa using hj, he⟩
        rw [hr, hi]; congr 1; omega
      · right
        intro w hw
        rcases List.mem_cons.mp hw with rfl | hw
        · exact hit
        · exact hall w hw
    simp only [getFreeWorkerLoop] at h
    split at h
    · simp at h
    · rename_i he
      simp only [Except.ok.injEq] at h
      left
      exact ⟨0, it, by simp [← h], by simp, he⟩
    · rename_i he
      split at h
      · simp at h
      · split at h
        · split at h
          · simp at h
          · exact lift _ _ _ h rfl he
        · exact lift _ _ _ h rfl he

/-- C10: while a worker executes a callable (any point between the invocation of `fn()`
and its return), the callable is still the head of the queue: `isEmpty()` returns false,
`getTaskCount()` returns 1 plus the number of callables waiting behind it; and whenever
`getFreeWorker` selects this worker, no worker of the pool reported an empty queue, so
the selection was not made by the first-idle branch. -/
theorem Worker.in_flight_counted {R : Type} (evs : List (WEvent R))
    (mem0 mem : List (AData R)) (w : Worker R)
    (h : Worker.run (Worker.ctor, mem0) evs = .ok (w, mem))
    (fn : fn_type R) (k : Nat) (hpc : w.pc = .call fn k) :
    w.isEmpty = .ok false ∧
    w.getTaskCount = .ok (1 + w.pending.length) ∧
    w.fqueue = fn :: w.pending ∧
    ∀ (p : ThreadPool R) (j : Nat), p._workers[j]? = some w →
      p.getFreeWorker = .ok (some j) → ∀ w2 ∈ p._workers, w2.isEmpty = .ok false := by
  have hinv := Worker.run_inv evs [] (Worker.ctor, mem0) (w, mem) Worker.ctor_inv h
  obtain ⟨-, hinv⟩ := hinv
  simp only [hpc] at hinv
  obtain ⟨hm, hhead, -⟩ := hinv
  cases hq : w.fqueue with
  | nil => simp [hq] at hhead
  | cons a rest =>
    simp only [hq, List.head?_cons, Option.some.injEq] at hhead
    subst hhead
    have hemp : w.isEmpty = .ok false := by simp [Worker.isEmpty, hm, hq]
    refine ⟨hemp, ?_, ?_, ?_⟩
    · simp [Worker.getTaskCount, hm, hq, Worker.pending, hpc]; omega
    · simp [Worker.pending, hpc, hq]
    · intro p j hj hsel
      rcases getFreeWorkerLoop_ok_cases _ _ _ _ _ hsel with ⟨j2, wj, hr, hj2, he⟩ | hall
      · simp only [Nat.zero_add, Option.some.injEq] at hr
        subst hr
        rw [hj] at hj2
        simp only [Option.some.injEq] at hj2
        subst hj2
        rw [hemp] at he
        simp at he
      · exact hall

/-- A schedule that appends callables 0 and 1 and lets the worker invoke callable 0. -/
def inFlightSchedule : List (WEvent Nat) :=
  [.appendFn (.bound 0), .appendFn (.bound 1), .tick, .tick, .tick, .tick, .tick]

/-- The worker reached by `inFlightSchedule`. -/
def inFlightWorker : Worker Nat :=
  { enabled := true, fqueue := [.bound 0, .bound 1], mutex := false,
    pc := .call (.bound 0) 0, started := [.bound 0] }

/-- Witness for C10: with callable 0 in flight and callable 1 behind it, the worker is
not empty and its task count is 2. -/
theorem Worker.in_flight_counted_witness :
    inFlightWorker.isEmpty = .ok false ∧
    inFlightWorker.getTaskCount = .ok 2 ∧
    inFlightWorker.getTaskCount = .ok (1 + inFlightWorker.pending.length) :=
  have h := Worker.in_flight_counted inFlightSchedule [] [] inFlightWorker rfl (.bound 0) 0 rfl
  ⟨h.1, rfl, h.2.1⟩

/-! ## Progress of the worker thread running alone -/

theorem Worker.run_append {R : Type} (a b : List (WEvent R)) (s : Worker R × List (AData R)) :
    Worker.run s (a ++ b) =
      match Worker.run s a with
      | .error f => .error f
      | .ok s2 => Worker.run s2 b := by
  induction a generalizing s with
  | nil => simp [Worker.run]
  | cons e es ih =>
    simp only [List.cons_append, Worker.run]
    cases Worker.step s e with
    | error f => rfl
    | ok s1 => exact ih s1

/-- A callable being executed returns: the worker thread reaches line 83. -/
theorem Worker.call_returns {R : Type} (d : Nat) (w : Worker R) (mem : List (AData R))
    (fn : fn_type R) (k : Nat) (hpc : w.pc = .call fn k) (hd : fn.size - k = d) :
    ∃ (ticks : List (WEvent R)) (mem2 : List (AData R)), (∀ e ∈ ticks, e = WEvent.tick) ∧
      Worker.run (w, mem) ticks = .ok ({ w with pc := .relock fn }, mem2) := by
  induction d generalizing w mem k with
  | zero =>
    refine ⟨[.tick], mem, by simp, ?_⟩
    have hk : ¬ k < fn.size := by omega
    simp [Worker.run, Worker.step, Worker.tick, hpc, hk]
  | succ d ih =>
    have hk : k < fn.size := by omega
    obtain ⟨ticks, mem2, hall, hrun⟩ :=
      ih { w with pc := .call fn (k + 1) } (fn.exec k mem) (k + 1) rfl (by omega)
    refine ⟨.tick :: ticks, mem2, ?_, ?_⟩
    · intro e he
      rcases List.mem_cons.mp he with rfl | he
      · rfl
      · exact hall e he
    · simp only [Worker.run, Worker.step, Worker.tick, hpc, hk, if_true]
      exact hrun

/-- From line 76 the worker thread, running alone, executes the whole queue in order and
comes back to line 70 with an empty queue. -/
theorem Worker.drains {R : Type} (q : List (fn_type R)) (w : Worker R)
    (mem : List (AData R)) (hpc : w.pc = .drain) (hq : w.fqueue = q) :
    ∃ (ticks : List (WEvent R)) (w2 : Worker R) (mem2 : List (AData R)),
      (∀ e ∈ ticks, e = WEvent.tick) ∧ Worker.run (w, mem) ticks = .ok (w2, mem2) ∧
      w2.pc = .loop ∧ w2.fqueue = [] ∧ w2.started = w.started ++ q ∧ w2.mutex = false ∧
      w2.enabled = w.enabled := by
  induction q generalizing w mem with
  | nil =>
    refine ⟨[.tick], { w with mutex := false, pc := .loop }, mem, by simp, ?_, rfl, ?_, ?_,
      rfl, rfl⟩
    · simp [Worker.run, Worker.step, Worker.tick, hpc, hq]
    · exact hq
    · simp
  | cons fn rest ih =>
    -- line 78, line 80 and the invocation
    let w1 : Worker R :=
      { w with mutex := false, pc := .call fn 0, started := w.started ++ [fn] }
    have h1 : Worker.run (w, mem) [.tick, .tick] = .ok (w1, mem) := by
      simp [Worker.run, Worker.step, Worker.tick, hpc, hq, w1]
    -- the body
    obtain ⟨t2, mem2, hall2, h2⟩ := Worker.call_returns (fn.size - 0) w1 mem fn 0 rfl rfl
    -- line 83, line 84
    let w3 : Worker R := { w1 with mutex := true, fqueue := rest, pc := .drain }
    have h3 : Worker.run ({ w1 with pc := .relock fn }, mem2) [.tick, .tick] =
        .ok (w3, mem2) := by
      simp [Worker.run, Worker.step, Worker.tick, hq, w1, w3]
    obtain ⟨t4, w4, mem4, hall4, h4, hpc4, hq4, hst4, hm4, hen4⟩ := ih w3 mem2 rfl rfl
    refine ⟨[.tick, .tick] ++ (t2 ++ ([.tick, .tick] ++ t4)), w4, mem4, ?_, ?_, hpc4, hq4,
      ?_, hm4, ?_⟩
    · intro e he
      simp only [List.mem_append, List.mem_cons, List.mem_singleton, List.not_mem_nil,
        or_false] at he
      rcases he with (rfl | rfl) | he | (rfl | rfl) | he
      · rfl
      · rfl
      · exact hall2 e he
      · rfl
      · rfl
      · exact hall4 e he
    · rw [Worker.run_append, h1]
      simp only
      rw [Worker.run_append, h2]
      simp only
      rw [Worker.run_append, h3]
      exact h4
    · rw [hst4]; simp [w3, w1]
    · rw [hen4]

/-- C7: reentrant submission.  In every reachable state in which the worker is executing
a callable `outer`, the worker thread does not hold the mutex; hence the critical
sections entered by a `runAsync` that `outer` calls do not block on this worker:
`isEmpty` and `getTaskCount` return, `runAsync` on a pool made of this worker dispatches
to it, and `appendFn` acquires the lock and appends `inner`; the worker thread then
returns from `outer`, pops it, and executes the rest of the queue up to and including
`inner`: both have been executed when it is back at line 70. -/
theorem Worker.reentrant_submission {R : Type} (evs : List (WEvent R))
    (mem0 mem : List (AData R)) (w : Worker R)
    (h : Worker.run (Worker.ctor, mem0) evs = .ok (w, mem))
    (outer : fn_type R) (k : Nat) (hpc : w.pc = .call outer k) (inner : fn_type R) :
    w.mutex = false ∧
    w.isEmpty = .ok false ∧ w.getTaskCount = .ok w.fqueue.length ∧
    (∀ id : Nat, w.fqueue.length < UINT32_MAX →
      ∃ w1, w.appendFn (.bound id) = .ok w1 ∧
        ThreadPool.runAsync { _workers := [w], heap := mem } id =
          .ok { _workers := [w1], heap := mem }) ∧
    ∃ w1, w.appendFn inner = .ok w1 ∧ w1.fqueue = w.fqueue ++ [inner] ∧ w1.pc = w.pc ∧
      ∃ (ticks : List (WEvent R)) (w2 : Worker R) (mem2 : List (AData R)),
        (∀ e ∈ ticks, e = WEvent.tick) ∧
        Worker.run (w1, mem) ticks = .ok (w2, mem2) ∧
        w2.pc = .loop ∧ w2.fqueue = [] ∧
        w2.started = w.started ++ w.pending ++ [inner] ∧
        outer ∈ w2.started ∧ inner ∈ w2.started := by
  have hinv := Worker.run_inv evs [] (Worker.ctor, mem0) (w, mem) Worker.ctor_inv h
  obtain ⟨-, hinv⟩ := hinv
  simp only [hpc] at hinv
  obtain ⟨hm, hhead, hlast⟩ := hinv
  cases hq : w.fqueue with
  | nil => simp [hq] at hhead
  | cons a rest =>
    simp only [hq, List.head?_cons, Option.some.injEq] at hhead
    subst hhead
    let w1 : Worker R := { w with fqueue := w.fqueue ++ [inner] }
    have happ : w.appendFn inner = .ok w1 := by simp [Worker.appendFn, hm, w1]
    have hemp : w.isEmpty = .ok false := by simp [Worker.isEmpty, hm, hq]
    have hcnt : w.getTaskCount = .ok (a :: rest).length := by
      simp [Worker.getTaskCount, hm, hq]
    refine ⟨hm, hemp, hcnt, ?_, w1, happ, ?_, rfl, ?_⟩
    · intro id hlen
      have hlen2 : rest.length + 1 < UINT32_MAX := by simpa using hlen
      refine ⟨{ w with fqueue := w.fqueue ++ [.bound id] }, by simp [Worker.appendFn, hm], ?_⟩
      simp [ThreadPool.runAsync, ThreadPool.dispatch, ThreadPool.getFreeWorker,
        getFreeWorkerLoop, hemp, hcnt, hlen2, Worker.appendFn, hm]
    · simp [w1, hq]
    obtain ⟨t1, mem1, hall1, h1⟩ :=
      Worker.call_returns (a.size - k) w1 mem a k hpc rfl
    let w3 : Worker R := { w1 with mutex := true, fqueue := rest ++ [inner], pc := .drain }
    have h3 : Worker.run ({ w1 with pc := .relock a }, mem1) [.tick, .tick] =
        .ok (w3, mem1) := by
      simp [Worker.run, Worker.step, Worker.tick, hq, hm, w1, w3]
    obtain ⟨t4, w4, mem4, hall4, h4, hpc4, hq4, hst4, -, -⟩ :=
      Worker.drains (rest ++ [inner]) w3 mem1 rfl rfl
    have hst : w4.started = w.started ++ w.pending ++ [inner] := by
      rw [hst4]; simp [w3, w1, Worker.pending, hpc, hq]
    refine ⟨t1 ++ ([.tick, .tick] ++ t4), w4, mem4, ?_, ?_, hpc4, hq4, hst, ?_, ?_⟩
    · intro e he
      simp only [List.mem_append, List.mem_cons, List.mem_singleton, List.not_mem_nil,
        or_false] at he
      rcases he with he | (rfl | rfl) | he
      · exact hall1 e he
      · rfl
      · rfl
      · exact hall4 e he
    · rw [Worker.run_append, h1]
      simp only
      rw [Worker.run_append, h3]
      exact h4
    · rw [hst]
      have : a ∈ w.started := List.mem_of_getLast?_eq_some hlast
      simp [this]
    · rw [hst]; simp

/-- A worker that is executing callable 0 of a one-element queue. -/
def outerWorker : Worker Nat :=
  { enabled := true, fqueue := [.bound 0], mutex := false, pc := .call (.bound 0) 0,
    started := [.bound 0] }

/-- Witness for C7: callable 0 is being executed (after one `appendFn` and five worker
steps) and submits callable 1 to its own worker. -/
theorem Worker.reentrant_submission_witness :
    outerWorker.mutex = false ∧
    outerWorker.isEmpty = .ok false ∧ outerWorker.getTaskCount = .ok outerWorker.fqueue.length ∧
    (∀ id : Nat, outerWorker.fqueue.length < UINT32_MAX →
      ∃ w1, outerWorker.appendFn (.bound id) = .ok w1 ∧
        ThreadPool.runAsync { _workers := [outerWorker], heap := [] } id =
          .ok { _workers := [w1], heap := [] }) ∧
    ∃ w1, outerWorker.appendFn (.bound 1) = .ok w1 ∧
      w1.fqueue = outerWorker.fqueue ++ [.bound 1] ∧ w1.pc = outerWorker.pc ∧
      ∃ (ticks : List (WEvent Nat)) (w2 : Worker Nat) (mem2 : List (AData Nat)),
        (∀ e ∈ ticks, e = WEvent.tick) ∧
        Worker.run (w1, []) ticks = .ok (w2, mem2) ∧
        w2.pc = .loop ∧ w2.fqueue = [] ∧
        w2.started = outerWorker.started ++ outerWorker.pending ++ [.bound 1] ∧
        fn_type.bound 0 ∈ w2.started ∧ fn_type.bound 1 ∈ w2.started :=
  Worker.reentrant_submission
    [.appendFn (.bound 0), .tick, .tick, .tick, .tick, .tick] [] [] outerWorker rfl
    (.bound 0) 0 rfl (.bound 1)

/-! ## Schedules of the pool -/

theorem ThreadPool.schedule_append {R : Type} (a b : List (Event R)) (p : ThreadPool R) :
    ThreadPool.run p (a ++ b) =
      match ThreadPool.run p a with
      | .error f => .error f
      | .ok p2 => ThreadPool.run p2 b := by
  induction a generalizing p with
  | nil => simp [ThreadPool.run]
  | cons e es ih =>
    simp only [List.cons_append, ThreadPool.run]
    cases p.step e with
    | error f => rfl
    | ok p1 => exact ih p1

/-- A single-worker pool whose worker thread has not been scheduled yet, with queue `q`. -/
def unscheduledPool {R : Type} (q : List (fn_type R)) : ThreadPool R :=
  { _workers := [ { enabled := true, fqueue := q, mutex := false, pc := .loop, started := [] } ],
    heap := [] }

theorem ThreadPool.ctor_one {R : Type} : (ThreadPool.ctor 1 : ThreadPool R) = unscheduledPool [] :=
  rfl

/-- One more submission to a single unscheduled worker whose depth is below the bound. -/
theorem unscheduledPool_runAsync {R : Type} (q : List (fn_type R)) (id : Nat)
    (hq : q.length < UINT32_MAX) :
    (unscheduledPool q).runAsync id = .ok (unscheduledPool (q ++ [.bound id])) := by
  cases q with
  | nil =>
    simp [unscheduledPool, ThreadPool.runAsync, ThreadPool.dispatch, ThreadPool.getFreeWorker,
      getFreeWorkerLoop, Worker.isEmpty, Worker.appendFn]
  | cons a rest =>
    have hm : rest.length + 1 < UINT32_MAX := by simpa using hq
    simp [unscheduledPool, ThreadPool.runAsync, ThreadPool.dispatch,
      ThreadPool.getFreeWorker, getFreeWorkerLoop, Worker.isEmpty, Worker.getTaskCount, hm,
      Worker.appendFn]

/-- While the worker thread is not scheduled, `n ≤ UINT32_MAX` submissions all land in
its queue. -/
theorem unscheduledPool_submissions {R : Type} (n : Nat) (hn : n ≤ UINT32_MAX) :
    ThreadPool.run (unscheduledPool ([] : List (fn_type R)))
        (List.replicate n (.runAsync 0)) =
      .ok (unscheduledPool (List.replicate n (.bound 0))) := by
  induction n with
  | zero => rfl
  | succ n ih =>
    rw [List.replicate_succ', ThreadPool.schedule_append, ih (by omega)]
    simp only [ThreadPool.run, ThreadPool.step]
    rw [unscheduledPool_runAsync _ _ (by simp only [List.length_replicate]; omega)]
    simp only [List.replicate_succ' n]

theorem ThreadPool.step_runAsync {R : Type} (p : ThreadPool R) (id : Nat) :
    p.step (.runAsync id) = p.runAsync id := rfl

theorem ThreadPool.run_fault {R : Type} (a : List (Event R)) (e : Event R)
    (p p2 : ThreadPool R) (f : Fault) (ha : ThreadPool.run p a = .ok p2)
    (he : p2.step e = .error f) : ThreadPool.run p (a ++ [e]) = .error f := by
  rw [ThreadPool.schedule_append, ha]
  simp only [ThreadPool.run, he]

theorem fullPool_eq : fullPool = unscheduledPool (List.replicate UINT32_MAX (.bound 0)) := rfl

/-- C6 (evaluation at the failing input): on a fresh single-worker pool whose worker
thread is not scheduled meanwhile, `UINT32_MAX` submissions are queued, and the next
`runAsync` finds no worker (`getFreeWorker` returns null, which is dereferenced): that
submission is added to no queue. -/
theorem ThreadPool.runAsync_lost_at_bound :
    ThreadPool.run (ThreadPool.ctor 1 : ThreadPool Nat)
        (List.replicate UINT32_MAX (.runAsync 0)) = .ok fullPool ∧
    fullPool.step (.runAsync 0) = .error .nullDeref ∧
    ThreadPool.run (ThreadPool.ctor 1 : ThreadPool Nat)
        (List.replicate UINT32_MAX (.runAsync 0) ++ [.runAsync 0]) = .error .nullDeref := by
  have h1 : ThreadPool.run (ThreadPool.ctor 1 : ThreadPool Nat)
      (List.replicate UINT32_MAX (.runAsync 0)) = .ok fullPool := by
    rw [ThreadPool.ctor_one, fullPool_eq]
    exact unscheduledPool_submissions UINT32_MAX (le_refl _)
  have h2 : fullPool.step (.runAsync 0) = .error .nullDeref := by
    rw [ThreadPool.step_runAsync]
    exact ThreadPool.runAsync_null fullPool 0
      (getFreeWorker_single_full _ _ rfl fullQueue_ne_nil (le_of_eq fullQueue_length.symm))
  exact ⟨h1, h2, ThreadPool.run_fault _ _ _ _ _ h1 h2⟩

/-- The shutdown path the code does provide: a worker asleep in `cv.wait` when its
destructor starts, once woken (the first step of `ticks`), executes the whole backlog in
order, and only then returns from `thread_fn`.  That the wake-up is delivered is part of
the schedule, not a conclusion. -/
theorem Worker.shutdown_drains_asleep {R : Type} (w : Worker R) (mem : List (AData R))
    (hpc : w.pc = .sleep) (hm : w.mutex = false) :
    ∃ (ticks : List (WEvent R)) (w2 : Worker R) (mem2 : List (AData R)),
      (∀ e ∈ ticks, e = WEvent.tick) ∧
      Worker.run (w, mem) (.dtor :: ticks) = .ok (w2, mem2) ∧
      w2.joined = true ∧ w2.fqueue = [] ∧ w2.started = w.started ++ w.fqueue := by
  let w1 : Worker R := { w with enabled := false, mutex := true, pc := .drain }
  have h1 : Worker.run (w, mem) [.dtor, .tick, .tick] = .ok (w1, mem) := by
    simp [Worker.run, Worker.step, Worker.dtor, Worker.tick, hpc, hm, w1]
  obtain ⟨t2, w2, mem2, hall2, h2, hpc2, hq2, hst2, -, hen2⟩ :=
    Worker.drains w.fqueue w1 mem rfl rfl
  have h3 : Worker.run (w2, mem2) [.tick] = .ok ({ w2 with pc := .exit }, mem2) := by
    have he : w2.enabled = false := hen2
    simp [Worker.run, Worker.step, Worker.tick, hpc2, he]
  refine ⟨[.tick, .tick] ++ (t2 ++ [.tick]), { w2 with pc := .exit }, mem2, ?_, ?_, rfl, hq2,
    hst2⟩
  · intro e he
    simp only [List.mem_append, List.mem_cons, List.mem_singleton, List.not_mem_nil,
      or_false] at he
    rcases he with (rfl | rfl) | he | rfl
    · rfl
    · rfl
    · exact hall2 e he
    · rfl
  · have : (WEvent.dtor :: ([.tick, .tick] ++ (t2 ++ [.tick])) : List (WEvent R)) =
        [.dtor, .tick, .tick] ++ (t2 ++ [.tick]) := rfl
    rw [this, Worker.run_append, h1]
    simp only
    rw [Worker.run_append, h2]
    exact h3

/-- Two submissions, then `~ThreadPool` starts destroying the worker before the worker
thread has evaluated `while (enabled)` for the first time, then the worker thread runs. -/
def shutdownSchedule : List (Event Nat) :=
  [.runAsync 0, .runAsync 1, .dtor 0, .tick 0]

/-- The pool reached by `shutdownSchedule`. -/
def abandonedPool : ThreadPool Nat :=
  { _workers :=
      [ { enabled := false, fqueue := [.bound 0, .bound 1], mutex := false, pc := .exit,
          started := [] } ],
    heap := [] }

/-- C5 (evaluation at the failing input): on `shutdownSchedule` the worker thread reads
`enabled == false` at line 70 and returns; `join` returns, both callables are still in
the queue and none has been executed. -/
theorem ThreadPool.shutdown_skips_backlog :
    ThreadPool.run (ThreadPool.ctor 1) shutdownSchedule = .ok abandonedPool ∧
    abandonedPool._workers.map Worker.joined = [true] ∧
    abandonedPool._workers.map (fun w => w.fqueue.length) = [2] ∧
    abandonedPool._workers.map (fun w => w.started.length) = [0] :=
  ⟨rfl, rfl, rfl, rfl⟩

/-! ## Result handles -/

/-- The callables whose `fn()` has returned. -/
def Worker.finished {R : Type} (w : Worker R) : List (fn_type R) :=
  match w.pc with
  | .call _ _ => w.started.dropLast
  | _ => w.started

/-- The callable agrees with the table `exp` of the callables bound to the handles
allocated so far. -/
def fn_type.Bound {R : Type} (exp : List (Unit → R)) : fn_type R → Prop
  | .bound _ => True
  | .result pData rfn => exp[pData]? = some rfn

/-- The value slot of the callable's handle holds its result. -/
def fn_type.Written {R : Type} (mem : List (AData R)) : fn_type R → Prop
  | .bound _ => True
  | .result pData rfn => ∃ c, mem[pData]? = some c ∧ c.data = some (rfn ())

/-- The callable's handle is ready and holds its result. -/
def fn_type.Done {R : Type} (mem : List (AData R)) : fn_type R → Prop
  | .bound _ => True
  | .result pData rfn => mem[pData]? = some { ready := true, data := some (rfn ()) }

/-- A handle bound to `rfn` is unset or holds `rfn()`, and holds `rfn()` when ready. -/
def AData.OK {R : Type} (rfn : Unit → R) (c : AData R) : Prop :=
  (c.data = none ∨ c.data = some (rfn ())) ∧ (c.ready = true → c.data = some (rfn ()))

/-- Every allocated handle is consistent with the callable bound to it. -/
def HeapOK {R : Type} (exp : List (Unit → R)) (mem : List (AData R)) : Prop :=
  exp.length = mem.length ∧
  ∀ (h : Nat) (rfn : Unit → R) (c : AData R), exp[h]? = some rfn → mem[h]? = some c → c.OK rfn

/-- What the statements already executed by the running callable have stored. -/
def Worker.Progress {R : Type} (mem : List (AData R)) (w : Worker R) : Prop :=
  match w.pc with
  | .call fn k => (1 ≤ k → fn.Written mem) ∧ (2 ≤ k → fn.Done mem)
  | .relock fn => fn.Done mem
  | .pop fn => fn.Done mem
  | _ => True

/-- Invariant of a worker of the pool, relative to the handle table and the free store. -/
def Worker.OK {R : Type} (exp : List (Unit → R)) (mem : List (AData R)) (w : Worker R) : Prop :=
  Worker.Inv (w.started ++ w.pending) w ∧
  (∀ t ∈ w.fqueue, fn_type.Bound exp t) ∧
  (∀ t ∈ w.started, fn_type.Bound exp t) ∧
  (∀ t ∈ w.finished, fn_type.Done mem t) ∧
  w.Progress mem

/-- Invariant of the pool. -/
def ThreadPool.OK {R : Type} (exp : List (Unit → R)) (p : ThreadPool R) : Prop :=
  HeapOK exp p.heap ∧ ∀ w ∈ p._workers, Worker.OK exp p.heap w

theorem storeAt_length {R : Type} (mem : List (AData R)) (p : Nat) (f : AData R → AData R) :
    (storeAt mem p f).length = mem.length := by
  unfold storeAt
  split <;> simp

theorem storeAt_getElem?_ne {R : Type} (mem : List (AData R)) (p h : Nat)
    (f : AData R → AData R) (hne : p ≠ h) : (storeAt mem p f)[h]? = mem[h]? := by
  unfold storeAt
  split
  · simp [List.getElem?_set, hne]
  · rfl

theorem storeAt_getElem?_eq {R : Type} (mem : List (AData R)) (p : Nat)
    (f : AData R → AData R) (c : AData R) (hc : mem[p]? = some c) :
    (storeAt mem p f)[p]? = some (f c) := by
  have hlt : p < mem.length := by
    by_contra hge
    rw [List.getElem?_eq_none (by omega)] at hc
    simp at hc
  unfold storeAt
  rw [hc]
  simp [List.getElem?_set, hlt]

theorem storeAt_getElem?_none {R : Type} (mem : List (AData R)) (p : Nat)
    (f : AData R → AData R) (hc : mem[p]? = none) : storeAt mem p f = mem := by
  unfold storeAt
  rw [hc]

/-- A statement of a callable leaves a cell of the free store alone, or it is statement
0 or 1 of the lambda capturing that very cell. -/
theorem fn_type.exec_getElem? {R : Type} (fn : fn_type R) (k : Nat) (mem : List (AData R))
    (h : Nat) :
    (fn.exec k mem)[h]? = mem[h]? ∨
    ∃ (rfn : Unit → R) (c : AData R), fn = .result h rfn ∧ mem[h]? = some c ∧
      ((k = 0 ∧ (fn.exec k mem)[h]? = some { c with data := some (rfn ()) }) ∨
       (k = 1 ∧ (fn.exec k mem)[h]? = some { c with ready := true })) := by
  cases fn with
  | bound id => left; cases k <;> rfl
  | result pData rfn =>
    by_cases hp : pData = h
    · subst hp
      cases hc : mem[pData]? with
      | none =>
        left
        match k with
        | 0 => simp only [fn_type.exec, storeAt_getElem?_none _ _ _ hc, hc]
        | 1 => simp only [fn_type.exec, storeAt_getElem?_none _ _ _ hc, hc]
        | k + 2 => simp only [fn_type.exec, hc]
      | some c =>
        match k with
        | 0 =>
          right
          exact ⟨rfn, c, rfl, rfl, Or.inl ⟨rfl, by
            simp only [fn_type.exec]; exact storeAt_getElem?_eq _ _ _ _ hc⟩⟩
        | 1 =>
          right
          exact ⟨rfn, c, rfl, rfl, Or.inr ⟨rfl, by
            simp only [fn_type.exec]; exact storeAt_getElem?_eq _ _ _ _ hc⟩⟩
        | k + 2 => left; simp [fn_type.exec, hc]
    · left
      match k with
      | 0 => simp only [fn_type.exec]; exact storeAt_getElem?_ne _ _ _ _ hp
      | 1 => simp only [fn_type.exec]; exact storeAt_getElem?_ne _ _ _ _ hp
      | k + 2 => rfl

theorem fn_type.exec_length {R : Type} (fn : fn_type R) (k : Nat) (mem : List (AData R)) :
    (fn.exec k mem).length = mem.length := by
  cases fn with
  | bound id => cases k <;> rfl
  | result pData rfn =>
    match k with
    | 0 => simp only [fn_type.exec, storeAt_length]
    | 1 => simp only [fn_type.exec, storeAt_length]
    | k + 2 => rfl

/-- A finished callable stays finished whatever statement another bound callable runs. -/
theorem fn_type.Done_exec {R : Type} (exp : List (Unit → R)) (mem : List (AData R))
    (t fn : fn_type R) (k : Nat) (ht : t.Bound exp) (hfn : fn.Bound exp) (hd : t.Done mem) :
    t.Done (fn.exec k mem) := by
  cases t with
  | bound id => trivial
  | result h r =>
    simp only [fn_type.Done] at hd ⊢
    simp only [fn_type.Bound] at ht
    rcases fn_type.exec_getElem? fn k mem h with heq | ⟨r2, c, hfn2, hc, hcase⟩
    · rw [heq]; exact hd
    · subst hfn2
      simp only [fn_type.Bound] at hfn
      rw [ht] at hfn
      simp only [Option.some.injEq] at hfn
      subst hfn
      rw [hd] at hc
      simp only [Option.some.injEq] at hc
      subst hc
      rcases hcase with ⟨-, he⟩ | ⟨-, he⟩ <;> rw [he]

/-- A written value slot stays written whatever statement another bound callable runs. -/
theorem fn_type.Written_exec {R : Type} (exp : List (Unit → R)) (mem : List (AData R))
    (t fn : fn_type R) (k : Nat) (ht : t.Bound exp) (hfn : fn.Bound exp)
    (hd : t.Written mem) : t.Written (fn.exec k mem) := by
  cases t with
  | bound id => trivial
  | result h r =>
    simp only [fn_type.Written] at hd ⊢
    simp only [fn_type.Bound] at ht
    obtain ⟨c0, hc0, hdata⟩ := hd
    rcases fn_type.exec_getElem? fn k mem h with heq | ⟨r2, c, hfn2, hc, hcase⟩
    · rw [heq]; exact ⟨c0, hc0, hdata⟩
    · subst hfn2
      simp only [fn_type.Bound] at hfn
      rw [ht] at hfn
      simp only [Option.some.injEq] at hfn
      subst hfn
      rw [hc0] at hc
      simp only [Option.some.injEq] at hc
      subst hc
      rcases hcase with ⟨-, he⟩ | ⟨-, he⟩
      · exact ⟨_, he, rfl⟩
      · exact ⟨_, he, hdata⟩

/-- The free store stays consistent when a bound callable runs statement `k`, provided
its value slot is written by the time it runs statement 1. -/
theorem HeapOK_exec {R : Type} (exp : List (Unit → R)) (mem : List (AData R))
    (fn : fn_type R) (k : Nat) (hfn : fn.Bound exp) (hw : 1 ≤ k → fn.Written mem)
    (hok : HeapOK exp mem) : HeapOK exp (fn.exec k mem) := by
  obtain ⟨hlen, hcells⟩ := hok
  refine ⟨by rw [fn_type.exec_length]; exact hlen, ?_⟩
  intro h rfn c hexp hc
  rcases fn_type.exec_getElem? fn k mem h with heq | ⟨r2, c0, hfn2, hc0, hcase⟩
  · rw [heq] at hc
    exact hcells h rfn c hexp hc
  · subst hfn2
    simp only [fn_type.Bound] at hfn
    rw [hexp] at hfn
    simp only [Option.some.injEq] at hfn
    subst hfn
    have h0 := hcells h rfn c0 hexp hc0
    rcases hcase with ⟨-, he⟩ | ⟨hk, he⟩
    · rw [he] at hc
      simp only [Option.some.injEq] at hc
      subst hc
      exact ⟨Or.inr rfl, fun _ => rfl⟩
    · rw [he] at hc
      simp only [Option.some.injEq] at hc
      subst hc
      have hwr := hw (by omega)
      simp only [fn_type.Written] at hwr
      obtain ⟨c1, hc1, hdata⟩ := hwr
      rw [hc0] at hc1
      simp only [Option.some.injEq] at hc1
      subst hc1
      exact ⟨Or.inr hdata, fun _ => hdata⟩

theorem Worker.finished_subset {R : Type} (w : Worker R) (t : fn_type R)
    (ht : t ∈ w.finished) : t ∈ w.started := by
  unfold Worker.finished at ht
  split at ht
  · exact List.mem_of_mem_dropLast ht
  · exact ht

/-- The callable held in the local variable `fn` is in the queue. -/
theorem Worker.Inv_fn_mem {R : Type} (ap : List (fn_type R)) (w : Worker R)
    (hinv : Worker.Inv ap w) (fn : fn_type R)
    (hpc : (∃ k, w.pc = .call fn k) ∨ w.pc = .relock fn ∨ w.pc = .pop fn ∨ w.pc = .unlock fn) :
    fn ∈ w.fqueue := by
  obtain ⟨-, hshape⟩ := hinv
  have hhead : w.fqueue.head? = some fn := by
    rcases hpc with ⟨k, hpc⟩ | hpc | hpc | hpc <;> simp only [hpc] at hshape
    · exact hshape.2.1
    · exact hshape.2.1
    · exact hshape.2.1
    · exact hshape.2
  exact List.mem_of_mem_head? hhead

/-- A worker of the pool is not disturbed by a statement run by another bound callable. -/
theorem Worker.OK_exec {R : Type} (exp : List (Unit → R)) (mem : List (AData R))
    (w : Worker R) (fn : fn_type R) (k : Nat) (hfn : fn.Bound exp)
    (hok : Worker.OK exp mem w) : Worker.OK exp (fn.exec k mem) w := by
  obtain ⟨hinv, hq, hs, hf, hp⟩ := hok
  refine ⟨hinv, hq, hs, ?_, ?_⟩
  · intro t ht
    exact fn_type.Done_exec exp mem t fn k (hs t (Worker.finished_subset w t ht)) hfn (hf t ht)
  · unfold Worker.Progress at hp ⊢
    cases hpc : w.pc with
    | call g j =>
      simp only [hpc] at hp
      have hg : g.Bound exp := hq g (Worker.Inv_fn_mem _ w hinv g (Or.inl ⟨j, hpc⟩))
      exact ⟨fun h1 => fn_type.Written_exec exp mem g fn k hg hfn (hp.1 h1),
        fun h2 => fn_type.Done_exec exp mem g fn k hg hfn (hp.2 h2)⟩
    | relock g =>
      simp only [hpc] at hp
      have hg : g.Bound exp := hq g (Worker.Inv_fn_mem _ w hinv g (Or.inr (Or.inl hpc)))
      exact fn_type.Done_exec exp mem g fn k hg hfn hp
    | pop g =>
      simp only [hpc] at hp
      have hg : g.Bound exp :=
        hq g (Worker.Inv_fn_mem _ w hinv g (Or.inr (Or.inr (Or.inl hpc))))
      exact fn_type.Done_exec exp mem g fn k hg hfn hp
    | loop => trivial
    | lock => trivial
    | wait => trivial
    | sleep => trivial
    | drain => trivial
    | unlock g => trivial
    | exit => trivial

/-- Statement 0 of the lambda writes the value slot; statement 1 then completes it. -/
theorem fn_type.exec_progress {R : Type} (exp : List (Unit → R)) (mem : List (AData R))
    (fn : fn_type R) (k : Nat) (hheap : HeapOK exp mem) (hfn : fn.Bound exp)
    (hk : k < fn.size) (hw : 1 ≤ k → fn.Written mem) :
    fn.Written (fn.exec k mem) ∧ (2 ≤ k + 1 → fn.Done (fn.exec k mem)) := by
  cases fn with
  | bound id => simp [fn_type.size] at hk
  | result h r =>
    simp only [fn_type.Bound] at hfn
    have hlt : h < mem.length := by
      by_contra hge
      rw [List.getElem?_eq_none (by rw [hheap.1]; omega)] at hfn
      simp at hfn
    have hc : mem[h]? = some mem[h] := List.getElem?_eq_getElem hlt
    simp only [fn_type.size] at hk
    match k, hk, hw with
    | 0, _, _ =>
      refine ⟨?_, by omega⟩
      simp only [fn_type.Written, fn_type.exec]
      exact ⟨_, storeAt_getElem?_eq _ _ _ _ hc, rfl⟩
    | 1, _, hw =>
      have hwr := hw (le_refl _)
      simp only [fn_type.Written] at hwr
      obtain ⟨c, hc1, hdata⟩ := hwr
      have he : ((fn_type.result h r).exec 1 mem)[h]? = some { c with ready := true } := by
        simp only [fn_type.exec]
        exact storeAt_getElem?_eq _ _ _ _ hc1
      refine ⟨?_, fun _ => ?_⟩
      · simp only [fn_type.Written]
        exact ⟨_, he, hdata⟩
      · simp only [fn_type.Done]
        rw [he, ← hdata]

/-- A step of a worker thread keeps the worker and the free store consistent; the free
store is unchanged or changed by one statement of a bound callable. -/
theorem Worker.OK_tick {R : Type} (exp : List (Unit → R)) (mem mem2 : List (AData R))
    (w w2 : Worker R) (hheap : HeapOK exp mem) (hok : Worker.OK exp mem w)
    (h : w.tick mem = .ok (w2, mem2)) :
    Worker.OK exp mem2 w2 ∧ HeapOK exp mem2 ∧
      (mem2 = mem ∨ ∃ fn k, fn_type.Bound exp fn ∧ mem2 = fn.exec k mem) := by
  obtain ⟨hinv, hq, hs, hf, hp⟩ := hok
  have hinv2 := Worker.tick_inv _ w w2 mem mem2 hinv h
  have hinv3 : Worker.Inv (w2.started ++ w2.pending) w2 := ⟨rfl, hinv2.2⟩
  cases hpc : w.pc with
  | loop =>
    simp only [Worker.tick, hpc, Except.ok.injEq, Prod.mk.injEq] at h
    obtain ⟨rfl, rfl⟩ := h
    refine ⟨⟨hinv3, hq, hs, ?_, ?_⟩, hheap, Or.inl rfl⟩
    · intro t ht
      apply hf t
      cases he : w.enabled <;> simpa [Worker.finished, hpc, he] using ht
    · cases he : w.enabled <;> simp [Worker.Progress, he]
  | lock =>
    simp only [Worker.tick, hpc] at h
    split at h
    · simp at h
    · simp only [Except.ok.injEq, Prod.mk.injEq] at h
      obtain ⟨rfl, rfl⟩ := h
      refine ⟨⟨hinv3, hq, hs, ?_, by simp [Worker.Progress]⟩, hheap, Or.inl rfl⟩
      intro t ht
      apply hf t
      simpa [Worker.finished, hpc] using ht
  | wait =>
    simp only [Worker.tick, hpc] at h
    split at h
    · simp only [Except.ok.injEq, Prod.mk.injEq] at h
      obtain ⟨rfl, rfl⟩ := h
      refine ⟨⟨hinv3, hq, hs, ?_, by simp [Worker.Progress]⟩, hheap, Or.inl rfl⟩
      intro t ht
      apply hf t
      simpa [Worker.finished, hpc] using ht
    · simp only [Except.ok.injEq, Prod.mk.injEq] at h
      obtain ⟨rfl, rfl⟩ := h
      refine ⟨⟨hinv3, hq, hs, ?_, by simp [Worker.Progress]⟩, hheap, Or.inl rfl⟩
      intro t ht
      apply hf t
      simpa [Worker.finished, hpc] using ht
  | sleep =>
    simp only [Worker.tick, hpc] at h
    split at h
    · simp at h
    · simp only [Except.ok.injEq, Prod.mk.injEq] at h
      obtain ⟨rfl, rfl⟩ := h
      refine ⟨⟨hinv3, hq, hs, ?_, by simp [Worker.Progress]⟩, hheap, Or.inl rfl⟩
      intro t ht
      apply hf t
      simpa [Worker.finished, hpc] using ht
  | drain =>
    simp only [Worker.tick, hpc] at h
    split at h
    · simp only [Except.ok.injEq, Prod.mk.injEq] at h
      obtain ⟨rfl, rfl⟩ := h
      refine ⟨⟨hinv3, hq, hs, ?_, by simp [Worker.Progress]⟩, hheap, Or.inl rfl⟩
      intro t ht
      apply hf t
      simpa [Worker.finished, hpc] using ht
    · simp only [Except.ok.injEq, Prod.mk.injEq] at h
      obtain ⟨rfl, rfl⟩ := h
      refine ⟨⟨hinv3, hq, hs, ?_, by simp [Worker.Progress]⟩, hheap, Or.inl rfl⟩
      intro t ht
      apply hf t
      simpa [Worker.finished, hpc] using ht
  | unlock fn =>
    have hmem : fn ∈ w.fqueue :=
      Worker.Inv_fn_mem _ w hinv fn (Or.inr (Or.inr (Or.inr hpc)))
    simp only [Worker.tick, hpc, Except.ok.injEq, Prod.mk.injEq] at h
    obtain ⟨rfl, rfl⟩ := h
    refine ⟨⟨hinv3, hq, ?_, ?_, by simp [Worker.Progress]⟩, hheap, Or.inl rfl⟩
    · intro t ht
      simp only [List.mem_append, List.mem_singleton] at ht
      rcases ht with ht | rfl
      · exact hs t ht
      · exact hq t hmem
    · intro t ht
      apply hf t
      simpa [Worker.finished, hpc] using ht
  | call fn k =>
    have hmem : fn ∈ w.fqueue := Worker.Inv_fn_mem _ w hinv fn (Or.inl ⟨k, hpc⟩)
    have hfn : fn.Bound exp := hq fn hmem
    simp only [Worker.Progress, hpc] at hp
    have hlast : w.started.getLast? = some fn := by
      have := hinv.2
      simp only [hpc] at this
      exact this.2.2
    simp only [Worker.tick, hpc] at h
    split at h
    · rename_i hk
      simp only [Except.ok.injEq, Prod.mk.injEq] at h
      obtain ⟨rfl, rfl⟩ := h
      have hprog := fn_type.exec_progress exp mem fn k hheap hfn hk hp.1
      refine ⟨⟨hinv3, hq, hs, ?_, ?_⟩, HeapOK_exec exp mem fn k hfn hp.1 hheap,
        Or.inr ⟨fn, k, hfn, rfl⟩⟩
      · intro t ht
        have ht2 : t ∈ w.finished := by simpa [Worker.finished, hpc] using ht
        exact fn_type.Done_exec exp mem t fn k (hs t (Worker.finished_subset w t ht2)) hfn
          (hf t ht2)
      · simp only [Worker.Progress]
        exact ⟨fun _ => hprog.1, hprog.2⟩
    · rename_i hk
      simp only [Except.ok.injEq, Prod.mk.injEq] at h
      obtain ⟨rfl, rfl⟩ := h
      have hdone : fn.Done mem := by
        cases fn with
        | bound id => trivial
        | result pData rfn =>
          apply hp.2
          simp only [fn_type.size] at hk
          omega
      refine ⟨⟨hinv3, hq, hs, ?_, by simpa [Worker.Progress] using hdone⟩, hheap, Or.inl rfl⟩
      intro t ht
      have ht2 : t ∈ w.started := by simpa [Worker.finished] using ht
      obtain ⟨ys, hys⟩ := List.getLast?_eq_some_iff.mp hlast
      rw [hys] at ht2
      simp only [List.mem_append, List.mem_singleton] at ht2
      rcases ht2 with ht2 | rfl
      · apply hf t
        simp [Worker.finished, hpc, hys, ht2]
      · exact hdone
  | relock fn =>
    simp only [Worker.Progress, hpc] at hp
    simp only [Worker.tick, hpc] at h
    split at h
    · simp at h
    · simp only [Except.ok.injEq, Prod.mk.injEq] at h
      obtain ⟨rfl, rfl⟩ := h
      refine ⟨⟨hinv3, hq, hs, ?_, by simpa [Worker.Progress] using hp⟩, hheap, Or.inl rfl⟩
      intro t ht
      apply hf t
      simpa [Worker.finished, hpc] using ht
  | pop fn =>
    simp only [Worker.tick, hpc] at h
    split at h
    · simp at h
    · rename_i a rest hqe
      simp only [Except.ok.injEq, Prod.mk.injEq] at h
      obtain ⟨rfl, rfl⟩ := h
      refine ⟨⟨hinv3, ?_, hs, ?_, by simp [Worker.Progress]⟩, hheap, Or.inl rfl⟩
      · intro t ht
        apply hq t
        rw [hqe]
        exact List.mem_cons_of_mem _ ht
      · intro t ht
        apply hf t
        simpa [Worker.finished, hpc] using ht
  | exit =>
    simp only [Worker.tick, hpc, Except.ok.injEq, Prod.mk.injEq] at h
    obtain ⟨rfl, rfl⟩ := h
    exact ⟨⟨hinv, hq, hs, hf, hp⟩, hheap, Or.inl rfl⟩

theorem Worker.OK_appendFn {R : Type} (exp : List (Unit → R)) (mem : List (AData R))
    (w w2 : Worker R) (fn : fn_type R) (hfn : fn.Bound exp) (hok : Worker.OK exp mem w)
    (h : w.appendFn fn = .ok w2) : Worker.OK exp mem w2 := by
  obtain ⟨hinv, hq, hs, hf, hp⟩ := hok
  have hinv2 := Worker.appendFn_inv _ w w2 fn hinv h
  unfold Worker.appendFn at h
  split at h
  · simp at h
  · simp only [Except.ok.injEq] at h
    subst h
    refine ⟨⟨rfl, hinv2.2⟩, ?_, hs, hf, hp⟩
    intro t ht
    simp only [List.mem_append, List.mem_singleton] at ht
    rcases ht with ht | rfl
    · exact hq t ht
    · exact hfn

theorem Worker.OK_dtor {R : Type} (exp : List (Unit → R)) (mem : List (AData R))
    (w : Worker R) (hok : Worker.OK exp mem w) : Worker.OK exp mem w.dtor := by
  obtain ⟨hinv, hq, hs, hf, hp⟩ := hok
  exact ⟨⟨rfl, (Worker.dtor_inv _ w hinv).2⟩, hq, hs, hf, hp⟩

theorem getElem?_append_of_some {α : Type} (l l2 : List α) (i : Nat) (a : α)
    (h : l[i]? = some a) : (l ++ l2)[i]? = some a := by
  have hlt : i < l.length := by
    by_contra hge
    rw [List.getElem?_eq_none (by omega)] at h
    simp at h
  rw [List.getElem?_append_left hlt]
  exact h

theorem fn_type.Bound_extend {R : Type} (exp : List (Unit → R)) (r : Unit → R)
    (t : fn_type R) (h : t.Bound exp) : t.Bound (exp ++ [r]) := by
  cases t with
  | bound id => trivial
  | result pData rfn => exact getElem?_append_of_some _ _ _ _ h

theorem fn_type.Done_extend {R : Type} (mem : List (AData R)) (c : AData R)
    (t : fn_type R) (h : t.Done mem) : t.Done (mem ++ [c]) := by
  cases t with
  | bound id => trivial
  | result pData rfn => exact getElem?_append_of_some _ _ _ _ h

theorem fn_type.Written_extend {R : Type} (mem : List (AData R)) (c : AData R)
    (t : fn_type R) (h : t.Written mem) : t.Written (mem ++ [c]) := by
  cases t with
  | bound id => trivial
  | result pData rfn =>
    obtain ⟨c0, hc0, hd⟩ := h
    exact ⟨c0, getElem?_append_of_some _ _ _ _ hc0, hd⟩

/-- Allocating a handle does not disturb a worker. -/
theorem Worker.OK_extend {R : Type} (exp : List (Unit → R)) (mem : List (AData R))
    (w : Worker R) (r : Unit → R) (c : AData R) (hok : Worker.OK exp mem w) :
    Worker.OK (exp ++ [r]) (mem ++ [c]) w := by
  obtain ⟨hinv, hq, hs, hf, hp⟩ := hok
  refine ⟨hinv, fun t ht => fn_type.Bound_extend _ _ t (hq t ht),
    fun t ht => fn_type.Bound_extend _ _ t (hs t ht),
    fun t ht => fn_type.Done_extend _ _ t (hf t ht), ?_⟩
  unfold Worker.Progress at hp ⊢
  cases hpc : w.pc with
  | call g j =>
    simp only [hpc] at hp
    exact ⟨fun h1 => fn_type.Written_extend _ _ g (hp.1 h1),
      fun h2 => fn_type.Done_extend _ _ g (hp.2 h2)⟩
  | relock g => simp only [hpc] at hp; exact fn_type.Done_extend _ _ g hp
  | pop g => simp only [hpc] at hp; exact fn_type.Done_extend _ _ g hp
  | loop => trivial
  | lock => trivial
  | wait => trivial
  | sleep => trivial
  | drain => trivial
  | unlock g => trivial
  | exit => trivial

/-- A freshly constructed handle is consistent with any callable bound to it. -/
theorem HeapOK_extend {R : Type} (exp : List (Unit → R)) (mem : List (AData R))
    (r : Unit → R) (hok : HeapOK exp mem) : HeapOK (exp ++ [r]) (mem ++ [AData.ctor]) := by
  obtain ⟨hlen, hcells⟩ := hok
  refine ⟨by simp [hlen], ?_⟩
  intro h rfn c hexp hc
  by_cases hlt : h < exp.length
  · rw [List.getElem?_append_left hlt] at hexp
    rw [List.getElem?_append_left (by omega)] at hc
    exact hcells h rfn c hexp hc
  · by_cases heq : h = mem.length
    · subst heq
      simp only [List.getElem?_concat_length, Option.some.injEq] at hc
      subst hc
      exact ⟨Or.inl rfl, fun hr => by simp [AData.ctor] at hr⟩
    · rw [List.getElem?_eq_none (by simp; omega)] at hc
      simp at hc

/-- What a successful dispatch does: one worker of the pool gets the callable appended. -/
theorem ThreadPool.dispatch_ok {R : Type} (p p2 : ThreadPool R) (fn : fn_type R)
    (h : p.dispatch fn = .ok p2) :
    ∃ (i : Nat) (w w2 : Worker R), p.getFreeWorker = .ok (some i) ∧
      p._workers[i]? = some w ∧ w.appendFn fn = .ok w2 ∧
      p2 = { p with _workers := p._workers.set i w2 } := by
  unfold ThreadPool.dispatch at h
  split at h
  · simp at h
  · simp at h
  · rename_i i hsel
    split at h
    · simp at h
    · rename_i w hw
      split at h
      · simp at h
      · rename_i w2 hw2
        simp only [Except.ok.injEq] at h
        exact ⟨i, w, w2, hsel, hw, hw2, h.symm⟩

theorem ThreadPool.OK_dispatch {R : Type} (exp : List (Unit → R)) (p p2 : ThreadPool R)
    (fn : fn_type R) (hfn : fn.Bound exp) (hok : p.OK exp) (h : p.dispatch fn = .ok p2) :
    p2.OK exp := by
  obtain ⟨i, w, w2, -, hw, happ, rfl⟩ := ThreadPool.dispatch_ok p p2 fn h
  obtain ⟨hheap, hws⟩ := hok
  refine ⟨hheap, ?_⟩
  intro w3 hw3
  rcases List.mem_or_eq_of_mem_set hw3 with hw3 | rfl
  · exact hws w3 hw3
  · exact Worker.OK_appendFn exp p.heap w w3 fn hfn (hws w (List.getElem?_mem hw)) happ

/-- The result overload: the handle is the next free cell, the table is extended by the
bound callable, and the invariant is kept. -/
theorem ThreadPool.OK_runAsyncR {R A : Type} (exp : List (Unit → R)) (p p2 : ThreadPool R)
    (f : A → R) (a : A) (h : Nat) (hok : p.OK exp) (hr : p.runAsyncR f a = .ok (h, p2)) :
    h = exp.length ∧ p2.OK (exp ++ [fun _ => f a]) ∧ p2.heap = p.heap ++ [AData.ctor] ∧
    ({ p with heap := p.heap ++ [AData.ctor] } : ThreadPool R).dispatch
      (.result h (fun _ => f a)) = .ok p2 := by
  unfold ThreadPool.runAsyncR at hr
  simp only at hr
  split at hr
  · simp at hr
  · rename_i p3 hd
    simp only [Except.ok.injEq, Prod.mk.injEq] at hr
    obtain ⟨rfl, rfl⟩ := hr
    obtain ⟨hheap, hws⟩ := hok
    have hok1 : ThreadPool.OK (exp ++ [fun _ => f a])
        ({ p with heap := p.heap ++ [AData.ctor] } : ThreadPool R) :=
      ⟨HeapOK_extend exp p.heap _ hheap, fun w hw => Worker.OK_extend exp p.heap w _ _ (hws w hw)⟩
    have hb : fn_type.Bound (exp ++ [fun _ => f a])
        (.result p.heap.length (fun _ => f a)) := by
      simp only [fn_type.Bound, ← hheap.1, List.getElem?_concat_length]
    refine ⟨hheap.1.symm, ThreadPool.OK_dispatch _ _ _ _ hb hok1 hd, ?_, hd⟩
    obtain ⟨i, w, w2, -, -, -, rfl⟩ := ThreadPool.dispatch_ok _ _ _ hd
    rfl

/-- Every event keeps the invariant of the pool, for an extension of the handle table. -/
theorem ThreadPool.OK_step {R : Type} (exp : List (Unit → R)) (p p2 : ThreadPool R)
    (e : Event R) (hok : p.OK exp) (h : p.step e = .ok p2) :
    ∃ exp2, exp <+: exp2 ∧ p2.OK exp2 := by
  cases e with
  | tick i =>
    simp only [ThreadPool.step] at h
    split at h
    · simp only [Except.ok.injEq] at h
      subst h
      exact ⟨exp, List.prefix_refl _, hok⟩
    · rename_i w hw
      split at h
      · simp at h
      · rename_i w2 mem2 ht
        simp only [Except.ok.injEq] at h
        subst h
        obtain ⟨hheap, hws⟩ := hok
        obtain ⟨hw2, hheap2, hmem⟩ :=
          Worker.OK_tick exp p.heap mem2 w w2 hheap (hws w (List.getElem?_mem hw)) ht
        refine ⟨exp, List.prefix_refl _, hheap2, ?_⟩
        intro w3 hw3
        rcases List.mem_or_eq_of_mem_set hw3 with hw4 | rfl
        · rcases hmem with rfl | ⟨fn, k, hfn, rfl⟩
          · exact hws w3 hw4
          · exact Worker.OK_exec exp p.heap w3 fn k hfn (hws w3 hw4)
        · exact hw2
  | runAsync id =>
    exact ⟨exp, List.prefix_refl _, ThreadPool.OK_dispatch exp p p2 (.bound id) trivial hok h⟩
  | runAsyncR rfn =>
    simp only [ThreadPool.step] at h
    split at h
    · simp at h
    · rename_i hd p3 hr
      simp only [Except.ok.injEq] at h
      subst h
      exact ⟨_, List.prefix_append _ _, (ThreadPool.OK_runAsyncR exp p _ rfn () hd hok hr).2.1⟩
  | dtor i =>
    simp only [ThreadPool.step] at h
    split at h
    · simp only [Except.ok.injEq] at h
      subst h
      exact ⟨exp, List.prefix_refl _, hok⟩
    · rename_i w hw
      simp only [Except.ok.injEq] at h
      subst h
      obtain ⟨hheap, hws⟩ := hok
      refine ⟨exp, List.prefix_refl _, hheap, ?_⟩
      intro w3 hw3
      rcases List.mem_or_eq_of_mem_set hw3 with hw3 | rfl
      · exact hws w3 hw3
      · exact Worker.OK_dtor exp p.heap w (hws w (List.getElem?_mem hw))

theorem ThreadPool.OK_run {R : Type} (evs : List (Event R)) (exp : List (Unit → R))
    (p p2 : ThreadPool R) (hok : p.OK exp) (h : ThreadPool.run p evs = .ok p2) :
    ∃ exp2, exp <+: exp2 ∧ p2.OK exp2 := by
  induction evs generalizing exp p with
  | nil =>
    simp only [ThreadPool.run, Except.ok.injEq] at h
    subst h
    exact ⟨exp, List.prefix_refl _, hok⟩
  | cons e es ih =>
    simp only [ThreadPool.run] at h
    split at h
    · simp at h
    · rename_i p1 hp1
      obtain ⟨exp1, hpre1, hok1⟩ := ThreadPool.OK_step exp p p1 e hok hp1
      obtain ⟨exp2, hpre2, hok2⟩ := ih exp1 p1 hok1 h
      exact ⟨exp2, List.IsPrefix.trans hpre1 hpre2, hok2⟩

theorem ThreadPool.ctorLoop_mem {R : Type} (i : Nat) (ws : List (Worker R)) (w : Worker R)
    (hw : w ∈ ThreadPool.ctorLoop i ws) : w ∈ ws ∨ w = Worker.ctor := by
  induction i generalizing ws with
  | zero => exact Or.inl hw
  | succ i ih =>
    rcases ih _ hw with h | h
    · simp only [List.mem_append, List.mem_singleton] at h
      exact h
    · exact Or.inr h

theorem Worker.ctor_OK {R : Type} : Worker.OK ([] : List (Unit → R)) [] Worker.ctor := by
  refine ⟨⟨rfl, ?_⟩, ?_, ?_, ?_, ?_⟩ <;>
    simp [Worker.ctor, Worker.finished, Worker.Progress]

theorem ThreadPool.fresh_OK {R : Type} (n : Nat) :
    (ThreadPool.ctor n : ThreadPool R).OK [] := by
  refine ⟨⟨rfl, ?_⟩, ?_⟩
  · intro h rfn c hexp
    simp at hexp
  · intro w hw
    rcases ThreadPool.ctorLoop_mem _ _ w hw with h | rfl
    · simp at h
    · exact Worker.ctor_OK

/-- How a step of a worker thread changes the free store: not at all, or by one
statement of the callable it is executing. -/
theorem Worker.tick_heap {R : Type} (w w2 : Worker R) (mem mem2 : List (AData R))
    (h : w.tick mem = .ok (w2, mem2)) :
    mem2 = mem ∨ ∃ fn k, w.pc = .call fn k ∧ k < fn.size ∧ mem2 = fn.exec k mem := by
  unfold Worker.tick at h
  split at h
  all_goals first
    | (simp only [Except.ok.injEq, Prod.mk.injEq] at h; exact Or.inl h.2.symm)
    | (split at h
       all_goals first
         | (simp only [Except.ok.injEq, Prod.mk.injEq] at h; exact Or.inl h.2.symm)
         | (simp at h; done)
         | skip)
  rename_i fn k hpc hk
  simp only [Except.ok.injEq, Prod.mk.injEq] at h
  exact Or.inr ⟨fn, k, hpc, hk, h.2.symm⟩

/-- C3: result round trip.  In any state `p1` reached from a fresh pool, the handle `h`
returned by `runAsync<R>(f, a)` is a new cell with `ready == false`; the lambda capturing
`h` and `f(a)` has been appended at the back of the queue of a worker; and in every state
reached afterwards in which the execution of that lambda has returned, the handle has
`ready == true` and `data == f(a)`. -/
theorem ThreadPool.result_round_trip {R A : Type} (n : Nat) (evs1 evs2 : List (Event R))
    (p1 p2 p3 : ThreadPool R) (f : A → R) (a : A) (h : Nat)
    (h1 : ThreadPool.run (ThreadPool.ctor n) evs1 = .ok p1)
    (h2 : p1.runAsyncR f a = .ok (h, p2))
    (h3 : ThreadPool.run p2 evs2 = .ok p3) :
    p2.heap[h]? = some { ready := false, data := none } ∧
    (∃ (i : Nat) (w : Worker R), p2._workers[i]? = some w ∧
      w.fqueue.getLast? = some (.result h (fun _ => f a))) ∧
    (∀ w ∈ p3._workers, fn_type.result h (fun _ => f a) ∈ w.finished →
      p3.heap[h]? = some { ready := true, data := some (f a) }) := by
  obtain ⟨exp1, -, hok1⟩ := ThreadPool.OK_run evs1 [] _ p1 (ThreadPool.fresh_OK n) h1
  obtain ⟨hh, hok2, hheap2, hd⟩ := ThreadPool.OK_runAsyncR exp1 p1 p2 f a h hok1 h2
  obtain ⟨exp3, -, hok3⟩ := ThreadPool.OK_run evs2 _ p2 p3 hok2 h3
  refine ⟨?_, ?_, ?_⟩
  · rw [hheap2, hh, hok1.1.1]
    simp [AData.ctor]
  · obtain ⟨i, w, w2, -, hw, happ, rfl⟩ := ThreadPool.dispatch_ok _ _ _ hd
    have hw1 : p1._workers[i]? = some w := hw
    have hlt : i < p1._workers.length := by
      by_contra hge
      rw [List.getElem?_eq_none (by omega)] at hw1
      simp at hw1
    refine ⟨i, w2, by simp [List.getElem?_set, hlt], ?_⟩
    unfold Worker.appendFn at happ
    split at happ
    · simp at happ
    · simp only [Except.ok.injEq] at happ
      subst happ
      simp
  · intro w hw hfin
    exact (hok3.2 w hw).2.2.2.1 _ hfin

/-- The pool after `runAsync<Nat>(f, 21)` with `f(x) = x * 2` on a fresh single-worker
pool. -/
def roundTripQueued : ThreadPool Nat :=
  { _workers :=
      [ { enabled := true, fqueue := [.result 0 (fun _ => (fun x => x * 2) 21)],
          mutex := false, pc := .loop, started := [] } ],
    heap := [ { ready := false, data := none } ] }

/-- The pool eight worker steps later: the lambda has returned (line 83 is next). -/
def roundTripDone : ThreadPool Nat :=
  { _workers :=
      [ { enabled := true, fqueue := [.result 0 (fun _ => (fun x => x * 2) 21)],
          mutex := false, pc := .relock (.result 0 (fun _ => (fun x => x * 2) 21)),
          started := [.result 0 (fun _ => (fun x => x * 2) 21)] } ],
    heap := [ { ready := true, data := some 42 } ] }

/-- Witness for C3: `f(x) = x * 2` with argument 21; the handle starts not ready and,
once the lambda has been executed, is ready with value 42. -/
theorem ThreadPool.result_round_trip_witness :
    roundTripQueued.heap[0]? = some { ready := false, data := none } ∧
    roundTripDone.heap[0]? = some { ready := true, data := some 42 } :=
  have h := ThreadPool.result_round_trip 1 []
    [.tick 0, .tick 0, .tick 0, .tick 0, .tick 0, .tick 0, .tick 0, .tick 0]
    (ThreadPool.ctor 1) roundTripQueued roundTripDone (fun x => x * 2) 21 0 rfl rfl rfl
  ⟨h.1, h.2.2 _ (List.mem_singleton.mpr rfl) (List.mem_singleton.mpr rfl)⟩

/-- How an event changes an allocated cell of the free store: not at all, unless the
event is a step of a worker thread executing statement 0 or 1 of the lambda that captured
the cell. -/
theorem ThreadPool.step_heap {R : Type} (p p2 : ThreadPool R) (e : Event R) (h : Nat)
    (c : AData R) (hc : p.heap[h]? = some c) (hs : p.step e = .ok p2)
    (hne : p2.heap[h]? ≠ p.heap[h]?) :
    ∃ (i : Nat) (w : Worker R) (rfn : Unit → R) (k : Nat), e = .tick i ∧
      p._workers[i]? = some w ∧ w.pc = .call (.result h rfn) k ∧ k < 2 := by
  cases e with
  | tick i =>
    simp only [ThreadPool.step] at hs
    split at hs
    · simp only [Except.ok.injEq] at hs
      subst hs
      exact absurd rfl hne
    · rename_i w hw
      split at hs
      · simp at hs
      · rename_i w2 mem2 ht
        simp only [Except.ok.injEq] at hs
        subst hs
        rcases Worker.tick_heap w w2 p.heap mem2 ht with rfl | ⟨fn, k, hpc, hk, rfl⟩
        · exact absurd rfl hne
        · rcases fn_type.exec_getElem? fn k p.heap h with heq | ⟨rfn, c0, rfl, -, -⟩
          · exact absurd heq hne
          · exact ⟨i, w, rfn, k, rfl, hw, hpc, hk⟩
  | runAsync id =>
    simp only [ThreadPool.step, ThreadPool.runAsync] at hs
    obtain ⟨i, w, w2, -, -, -, rfl⟩ := ThreadPool.dispatch_ok _ _ _ hs
    exact absurd rfl hne
  | runAsyncR rfn =>
    simp only [ThreadPool.step] at hs
    split at hs
    · simp at hs
    · rename_i hd p3 hr
      simp only [Except.ok.injEq] at hs
      subst hs
      unfold ThreadPool.runAsyncR at hr
      simp only at hr
      split at hr
      · simp at hr
      · rename_i p4 hd4
        simp only [Except.ok.injEq, Prod.mk.injEq] at hr
        obtain ⟨-, rfl⟩ := hr
        obtain ⟨i, w, w2, -, -, -, rfl⟩ := ThreadPool.dispatch_ok _ _ _ hd4
        exact absurd (by
          show (p.heap ++ [AData.ctor])[h]? = p.heap[h]?
          rw [hc]; exact getElem?_append_of_some _ _ _ _ hc) hne
  | dtor i =>
    simp only [ThreadPool.step] at hs
    split at hs
    · simp only [Except.ok.injEq] at hs
      subst hs
      exact absurd rfl hne
    · simp only [Except.ok.injEq] at hs
      subst hs
      exact absurd rfl hne

/-- Program order of the producing lambda.  For the handle `h` created by
`runAsync<R>(f, a)` in a reachable state, in every state of this step machine reached
afterwards the value slot is unset or holds `f(a)`, and `ready == true` implies
`data == f(a)`; and an event that changes the handle is a step of a worker thread
executing one of the two statements of the lambda that captured `h` and `f(a)`.  This is
a statement about the store of the executing thread only (see `fn_type.exec`). -/
theorem ThreadPool.handle_program_order {R A : Type} (n : Nat) (evs1 evs2 : List (Event R))
    (p1 p2 p3 : ThreadPool R) (f : A → R) (a : A) (h : Nat)
    (h1 : ThreadPool.run (ThreadPool.ctor n) evs1 = .ok p1)
    (h2 : p1.runAsyncR f a = .ok (h, p2))
    (h3 : ThreadPool.run p2 evs2 = .ok p3) :
    (∃ c, p3.heap[h]? = some c ∧ (c.data = none ∨ c.data = some (f a)) ∧
      (c.ready = true → c.data = some (f a))) ∧
    (∀ (e : Event R) (p4 : ThreadPool R), p3.step e = .ok p4 → p4.heap[h]? ≠ p3.heap[h]? →
      ∃ (i : Nat) (w : Worker R) (k : Nat), e = .tick i ∧ p3._workers[i]? = some w ∧
        w.pc = .call (.result h (fun _ => f a)) k ∧ k < 2) := by
  obtain ⟨exp1, -, hok1⟩ := ThreadPool.OK_run evs1 [] _ p1 (ThreadPool.fresh_OK n) h1
  obtain ⟨hh, hok2, -, -⟩ := ThreadPool.OK_runAsyncR exp1 p1 p2 f a h hok1 h2
  obtain ⟨exp3, hpre, hok3⟩ := ThreadPool.OK_run evs2 _ p2 p3 hok2 h3
  have hexp : exp3[h]? = some (fun _ => f a) := by
    obtain ⟨t, rfl⟩ := hpre
    apply getElem?_append_of_some
    rw [hh]
    exact List.getElem?_concat_length _ _
  have hlt : h < p3.heap.length := by
    rw [← hok3.1.1]
    by_contra hge
    rw [List.getElem?_eq_none (by omega)] at hexp
    simp at hexp
  have hc : p3.heap[h]? = some p3.heap[h] := List.getElem?_eq_getElem hlt
  refine ⟨⟨_, hc, hok3.1.2 h _ _ hexp hc⟩, ?_⟩
  intro e p4 hs hne
  obtain ⟨i, w, rfn, k, he, hw, hpc, hk⟩ := ThreadPool.step_heap p3 p4 e h _ hc hs hne
  have hwok := hok3.2 w (List.getElem?_mem hw)
  have hb : fn_type.Bound exp3 (.result h rfn) :=
    hwok.2.1 _ (Worker.Inv_fn_mem _ w hwok.1 _ (Or.inl ⟨k, hpc⟩))
  simp only [fn_type.Bound] at hb
  rw [hexp] at hb
  simp only [Option.some.injEq] at hb
  subst hb
  exact ⟨i, w, k, he, hw, hpc, hk⟩

/-! ## Accounting of submissions -/

/-- Number of callables a worker has started or still holds pending. -/
def Worker.accounted {R : Type} (w : Worker R) : Nat := w.started.length + w.pending.length

/-- Number of callables accounted for by the workers of the pool. -/
def ThreadPool.accounted {R : Type} (p : ThreadPool R) : Nat :=
  (p._workers.map Worker.accounted).sum

/-- Number of `runAsync` calls (either overload) in a schedule. -/
def Event.submissions {R : Type} : List (Event R) → Nat
  | [] => 0
  | .runAsync _ :: es => Event.submissions es + 1
  | .runAsyncR _ :: es => Event.submissions es + 1
  | _ :: es => Event.submissions es

theorem sum_map_set {α : Type} (f : α → Nat) (l : List α) (i : Nat) (a b : α)
    (h : l[i]? = some a) : ((l.set i b).map f).sum + f a = (l.map f).sum + f b := by
  induction l generalizing i with
  | nil => simp at h
  | cons x xs ih =>
    cases i with
    | zero =>
      simp only [List.getElem?_cons_zero, Option.some.injEq] at h
      subst h
      simp only [List.set_cons_zero, List.map_cons, List.sum_cons]
      omega
    | succ i =>
      simp only [List.getElem?_cons_succ] at h
      have := ih i h
      simp only [List.set_cons_succ, List.map_cons, List.sum_cons]
      omega

theorem ThreadPool.accounted_dispatch {R : Type} (exp : List (Unit → R))
    (p p2 : ThreadPool R) (fn : fn_type R) (hok : p.OK exp) (h : p.dispatch fn = .ok p2) :
    p2.accounted = p.accounted + 1 := by
  obtain ⟨i, w, w2, -, hw, happ, rfl⟩ := ThreadPool.dispatch_ok p p2 fn h
  have hinv := (hok.2 w (List.getElem?_mem hw)).1
  have hinv2 := (Worker.appendFn_inv _ w w2 fn hinv happ).1
  have hlen := congrArg List.length hinv2
  simp only [List.length_append, List.length_singleton] at hlen
  have := sum_map_set Worker.accounted p._workers i w w2 hw
  simp only [ThreadPool.accounted, Worker.accounted] at this ⊢
  omega

/-- A successful submission adds one callable to the accounts; no other event changes
them. -/
theorem ThreadPool.accounted_step {R : Type} (exp : List (Unit → R)) (p p2 : ThreadPool R)
    (e : Event R) (hok : p.OK exp) (h : p.step e = .ok p2) :
    p2.accounted = p.accounted + Event.submissions [e] := by
  cases e with
  | tick i =>
    simp only [ThreadPool.step] at h
    split at h
    · simp only [Except.ok.injEq] at h
      subst h
      rfl
    · rename_i w hw
      split at h
      · simp at h
      · rename_i w2 mem2 ht
        simp only [Except.ok.injEq] at h
        subst h
        have hinv := (hok.2 w (List.getElem?_mem hw)).1
        have hinv2 := (Worker.tick_inv _ w w2 p.heap mem2 hinv ht).1
        have hlen := congrArg List.length hinv2
        simp only [List.length_append] at hlen
        have := sum_map_set Worker.accounted p._workers i w w2 hw
        simp only [ThreadPool.accounted, Worker.accounted, Event.submissions] at this ⊢
        omega
  | runAsync id =>
    exact ThreadPool.accounted_dispatch exp p p2 _ hok h
  | runAsyncR rfn =>
    simp only [ThreadPool.step] at h
    split at h
    · simp at h
    · rename_i hd p3 hr
      simp only [Except.ok.injEq] at h
      subst h
      obtain ⟨-, -, -, hdis⟩ := ThreadPool.OK_runAsyncR exp p _ rfn () hd hok hr
      have hok1 : ThreadPool.OK (exp ++ [fun _ => rfn ()])
          ({ p with heap := p.heap ++ [AData.ctor] } : ThreadPool R) :=
        ⟨HeapOK_extend exp p.heap _ hok.1,
          fun w hw => Worker.OK_extend exp p.heap w _ _ (hok.2 w hw)⟩
      exact ThreadPool.accounted_dispatch _
        ({ p with heap := p.heap ++ [AData.ctor] } : ThreadPool R) p3 _ hok1 hdis
  | dtor i =>
    simp only [ThreadPool.step] at h
    split at h
    · simp only [Except.ok.injEq] at h
      subst h
      rfl
    · rename_i w hw
      simp only [Except.ok.injEq] at h
      subst h
      have hinv := (hok.2 w (List.getElem?_mem hw)).1
      have hinv2 := (Worker.dtor_inv _ w hinv).1
      have hlen := congrArg List.length hinv2
      simp only [List.length_append] at hlen
      have := sum_map_set Worker.accounted p._workers i w w.dtor hw
      simp only [ThreadPool.accounted, Worker.accounted, Event.submissions] at this ⊢
      omega

theorem Event.submissions_cons {R : Type} (e : Event R) (es : List (Event R)) :
    Event.submissions (e :: es) = Event.submissions [e] + Event.submissions es := by
  cases e <;> simp [Event.submissions] <;> omega

theorem ThreadPool.accounted_run {R : Type} (evs : List (Event R)) (exp : List (Unit → R))
    (p p2 : ThreadPool R) (hok : p.OK exp) (h : ThreadPool.run p evs = .ok p2) :
    p2.accounted = p.accounted + Event.submissions evs := by
  induction evs generalizing exp p with
  | nil =>
    simp only [ThreadPool.run, Except.ok.injEq] at h
    subst h
    rfl
  | cons e es ih =>
    simp only [ThreadPool.run] at h
    split at h
    · simp at h
    · rename_i p1 hp1
      obtain ⟨exp1, -, hok1⟩ := ThreadPool.OK_step exp p p1 e hok hp1
      have hcons := Event.submissions_cons e es
      rw [ih exp1 p1 hok1 h, ThreadPool.accounted_step exp p p1 e hok hp1]
      omega

theorem ThreadPool.ctor_accounted {R : Type} (n : Nat) :
    (ThreadPool.ctor n : ThreadPool R).accounted = 0 := by
  have hall : ∀ w ∈ (ThreadPool.ctor n : ThreadPool R)._workers, Worker.accounted w = 0 := by
    intro w hw
    rcases ThreadPool.ctorLoop_mem _ _ w hw with h | rfl
    · simp at h
    · rfl
  unfold ThreadPool.accounted
  apply List.sum_eq_zero
  intro x hx
  obtain ⟨w, hw, rfl⟩ := List.mem_map.mp hx
  exact hall w hw

/-- No duplicates and no losses, as long as every dispatch finds a worker: after a
schedule in which no call faulted, the callables started or pending on the workers are as
many as the submissions; with every queue empty, the started ones are as many as the
submissions and none is in flight. -/
theorem ThreadPool.conservation {R : Type} (n : Nat) (evs : List (Event R))
    (p : ThreadPool R) (h : ThreadPool.run (ThreadPool.ctor n) evs = .ok p) :
    p.accounted = Event.submissions evs ∧
    ((∀ w ∈ p._workers, w.fqueue = []) →
      (p._workers.map (fun w => w.started.length)).sum = Event.submissions evs ∧
      ∀ w ∈ p._workers, w.finished = w.started) := by
  have hacc := ThreadPool.accounted_run evs [] _ p (ThreadPool.fresh_OK n) h
  rw [ThreadPool.ctor_accounted, Nat.zero_add] at hacc
  obtain ⟨exp, -, hok⟩ := ThreadPool.OK_run evs [] _ p (ThreadPool.fresh_OK n) h
  refine ⟨hacc, fun hempty => ⟨?_, ?_⟩⟩
  · rw [← hacc]
    unfold ThreadPool.accounted
    congr 1
    apply List.map_congr_left
    intro w hw
    have hq := hempty w hw
    have : w.pending = [] := by
      unfold Worker.pending
      split <;> simp [hq]
    simp [Worker.accounted, this]
  · intro w hw
    have hq := hempty w hw
    have hmem := Worker.Inv_fn_mem _ w (hok.2 w hw).1
    unfold Worker.finished
    split
    · rename_i fn k hpc
      have := hmem fn (Or.inl ⟨k, hpc⟩)
      rw [hq] at this
      simp at this
    · rfl
